import Mathlib

/-! # simpleflyweight: a shallow embedding of `simple_flyweight.hpp`

The header defines a flyweight handle `SimpleFlyweight<T, tag>` whose `New(args...)` binds the
handle to the one shared heap instance of `T` built from `args...`.  The instances live in
static `std::map`s, one per template instantiation `MySharedMaps<T, tag, Args...>`.

Embedding choices.

* The value type `T` is a parameter.  An argument list `args...` is a value of a type `A`
  of all argument lists the program uses; `ArgOps.shapeOf` gives the pack of argument types
  `Args...` (what `typeid(CachedArgs<std::tuple<Args...>>)` identifies), `ArgOps.lt` and
  `ArgOps.eq` are `operator<` and `operator==` of `std::tuple<Args...>` (only ever applied to
  two tuples of the same shape), and `ArgOps.construct` is `T(args...)`.
* A pointer `T*` is a natural number, `0` being `nullptr`; the instance at address `p + 1`
  is cell `p` of the heap, and `new` returns the first unused address.  Nothing is ever
  deleted by the header.
* A `std::map` is the list of its nodes in key order; `find` and `insert` walk it with the
  comparison object only, as the library does.
* `current_args_ptr` points at the key stored in a map node.  Nodes are never erased and their
  keys are immutable, so the pointer is modelled by the key it points at (whose dynamic type
  is given by `shapeOf`); `none` is the null pointer.
* A client program is a sequence of operations on numbered handles (`Op`, `step`, `run`):
  default, copy and argument construction, `New`, and assignment through `operator()`.
* `New`, `lookupOrInsert` and the programs built on them describe the calls in which the
  constructor `T(args...)` returns.  `NewE` is `New` with the other exit as well: the
  constructor throws at line 95, after line 87 has already overwritten `current_args_type`.

Keys are compared in two ways by `New`: the map uses `operator<`, the fast path uses
`operator==`.  `StrictWeak` is the documented precondition on `operator<`; `EqSound` says
that `operator==` only holds between keys that `operator<` does not tell apart.
-/

namespace Flyweight

/-- The operations the header takes from the argument types and from `T`. -/
structure ArgOps (A Shape T : Type) where
  /-- The pack of argument types of an argument list. -/
  shapeOf : A → Shape
  /-- Tuple `operator<`. -/
  lt : A → A → Bool
  /-- Tuple `operator==`. -/
  eq : A → A → Bool
  /-- The constructor call `T(args...)`. -/
  construct : A → T

/-- Class `CachedArgs<T>`: a wrapper around the tuple `v`. -/
structure CachedArgs (A : Type) where
  v : A

variable {A Shape T : Type}

/-- Member `CachedArgs::operator<`: `return v < other.v;`. -/
def CachedArgs.lt (ops : ArgOps A Shape T) (self other : CachedArgs A) : Bool :=
  ops.lt self.v other.v

/-- The nodes of one `std::map<CachedArgs<std::tuple<Args...>>, T*>`, in key order. -/
abbrev SharedMap (A : Type) := List (CachedArgs A × Nat)

/-- Library call `std::map::find`: walk to the first node whose key is not less than `k`
(the lower bound); it is the result unless `k` is less than its key.  `none` is `end()`. -/
def mapFind (ops : ArgOps A Shape T) : SharedMap A → CachedArgs A → Option (CachedArgs A × Nat)
  | [], _ => none
  | e :: m, k =>
    if CachedArgs.lt ops e.1 k then mapFind ops m k
    else if CachedArgs.lt ops k e.1 then none
    else some e

/-- Library call `std::map::insert(kv).first`: the new map and the node the returned iterator
points at, which is the new node, or the node with an equivalent key that prevented the
insertion. -/
def mapInsert (ops : ArgOps A Shape T) :
    SharedMap A → CachedArgs A × Nat → SharedMap A × (CachedArgs A × Nat)
  | [], kv => ([kv], kv)
  | e :: m, kv =>
    if CachedArgs.lt ops e.1 kv.1 then ((e :: (mapInsert ops m kv).1), (mapInsert ops m kv).2)
    else if CachedArgs.lt ops kv.1 e.1 then (kv :: e :: m, kv)
    else (e :: m, e)

/-- The process-wide state the header works on: the heap of `T` instances and the static
members `MySharedMaps<T, tag, Args...>::data`, one map per `tag` and argument shape. -/
structure Globals (A Shape T : Type) where
  heap : List T
  data : Int → Shape → SharedMap A

/-- State at program start: nothing allocated, every static map empty. -/
def Globals.init : Globals A Shape T := ⟨[], fun _ _ => []⟩

section

variable [DecidableEq Shape]

/-- Replace the map of one instantiation `(tag, shape)`. -/
def Globals.setData (g : Globals A Shape T) (tag : Int) (s : Shape) (m : SharedMap A) :
    Int → Shape → SharedMap A :=
  fun t u => if t = tag ∧ u = s then m else g.data t u

/-- Class `SimpleFlyweight<T, tag>`: its three data members.  The template parameter `tag`
is passed to the member functions below.  `current_args_type = none` is
`typeid(no_args)`. -/
structure SimpleFlyweight (A Shape : Type) where
  ptr : Nat
  current_args_type : Option Shape
  current_args_ptr : Option (CachedArgs A)

/-- Default constructor with the default member initialisers. -/
def SimpleFlyweight.unbound : SimpleFlyweight A Shape := ⟨0, none, none⟩

/-- Copy constructor: copies the three members. -/
def SimpleFlyweight.copy (other : SimpleFlyweight A Shape) : SimpleFlyweight A Shape :=
  ⟨other.ptr, other.current_args_type, other.current_args_ptr⟩

/-- The cast `dynamic_cast<const CachedArgs<std::tuple<Args...>>*>(current_args_ptr)`:
the pointer itself when the object it points at has that type, otherwise null. -/
def dynamicCast (ops : ArgOps A Shape T) (s : Shape) (p : Option (CachedArgs A)) :
    Option (CachedArgs A) :=
  match p with
  | none => none
  | some c => if ops.shapeOf c.v = s then some c else none

/-- Lines 87 to 98 of `New`, when the constructor `T(args...)` returns: record the shape,
then find the key in the map of `(tag, Args...)` or insert it with a newly constructed
instance.  `lookupOrInsertE` below has the exit by an exception of the constructor too. -/
def SimpleFlyweight.lookupOrInsert (ops : ArgOps A Shape T) (tag : Int)
    (self : SimpleFlyweight A Shape) (g : Globals A Shape T) (args : A) :
    Nat × SimpleFlyweight A Shape × Globals A Shape T :=
  let key : CachedArgs A := ⟨args⟩
  let args_type := ops.shapeOf args
  let self1 : SimpleFlyweight A Shape := { self with current_args_type := some args_type }
  match mapFind ops (g.data tag args_type) key with
  | some i => (i.2, { self1 with current_args_ptr := some i.1, ptr := i.2 }, g)
  | none =>
    let p : Nat := g.heap.length + 1
    let heap1 := g.heap ++ [ops.construct args]
    let a := mapInsert ops (g.data tag args_type) (key, p)
    (p, { self1 with ptr := p, current_args_ptr := some a.2.1 },
      ⟨heap1, g.setData tag args_type a.1⟩)

/-- Member `SimpleFlyweight::New(args...)`.  The result is the returned pointer, the handle
and the global state after the call; `none` is the dereference of a null pointer, when the
`dynamic_cast` on the fast path fails. -/
def SimpleFlyweight.New (ops : ArgOps A Shape T) (tag : Int)
    (self : SimpleFlyweight A Shape) (g : Globals A Shape T) (args : A) :
    Option (Nat × SimpleFlyweight A Shape × Globals A Shape T) :=
  let key : CachedArgs A := ⟨args⟩
  let args_type := ops.shapeOf args
  if self.ptr ≠ 0 then
    if some args_type = self.current_args_type then
      match dynamicCast ops args_type self.current_args_ptr with
      | none => none
      | some c =>
        if ops.eq c.v key.v then some (self.ptr, self, g)
        else some (self.lookupOrInsert ops tag g args)
    else some (self.lookupOrInsert ops tag g args)
  else some (self.lookupOrInsert ops tag g args)

/-- How a call of `New` ends. -/
inductive Outcome (A Shape T : Type) where
  /-- It returns pointer `p`, leaving handle `h` and global state `g`. -/
  | returned (p : Nat) (h : SimpleFlyweight A Shape) (g : Globals A Shape T)
  /-- The constructor `T(args...)` throws at line 95 and the exception leaves `New`, with
  handle `h` and global state `g`. -/
  | threw (h : SimpleFlyweight A Shape) (g : Globals A Shape T)
  /-- The null result of the `dynamic_cast` is dereferenced at line 82. -/
  | nullDeref

/-- Lines 87 to 98 of `New`, where `throws args` says that the constructor `T(args...)`
throws.  Line 87 has assigned `current_args_type` when `new T(args...)` is evaluated at
line 95; if the constructor throws, `ptr` is not assigned, nothing is inserted, and `ptr` and
`current_args_ptr` keep their old values. -/
def SimpleFlyweight.lookupOrInsertE (ops : ArgOps A Shape T) (throws : A → Bool) (tag : Int)
    (self : SimpleFlyweight A Shape) (g : Globals A Shape T) (args : A) : Outcome A Shape T :=
  let key : CachedArgs A := ⟨args⟩
  let args_type := ops.shapeOf args
  let self1 : SimpleFlyweight A Shape := { self with current_args_type := some args_type }
  match mapFind ops (g.data tag args_type) key with
  | some i => .returned i.2 { self1 with current_args_ptr := some i.1, ptr := i.2 } g
  | none =>
    if throws args then .threw self1 g
    else
      let p : Nat := g.heap.length + 1
      let heap1 := g.heap ++ [ops.construct args]
      let a := mapInsert ops (g.data tag args_type) (key, p)
      .returned p { self1 with ptr := p, current_args_ptr := some a.2.1 }
        ⟨heap1, g.setData tag args_type a.1⟩

/-- Member `SimpleFlyweight::New(args...)` with all its exits, where `throws args` says that
the constructor `T(args...)` throws. -/
def SimpleFlyweight.NewE (ops : ArgOps A Shape T) (throws : A → Bool) (tag : Int)
    (self : SimpleFlyweight A Shape) (g : Globals A Shape T) (args : A) : Outcome A Shape T :=
  let key : CachedArgs A := ⟨args⟩
  let args_type := ops.shapeOf args
  if self.ptr ≠ 0 then
    if some args_type = self.current_args_type then
      match dynamicCast ops args_type self.current_args_ptr with
      | none => .nullDeref
      | some c =>
        if ops.eq c.v key.v then .returned self.ptr self g
        else self.lookupOrInsertE ops throws tag g args
    else self.lookupOrInsertE ops throws tag g args
  else self.lookupOrInsertE ops throws tag g args

/-- The tests of lines 80 to 82 of `New` all succeed: the handle holds a pointer, the shape
of `args...` is the cached one, and the cached key is `==` to the key of `args...`. -/
def SimpleFlyweight.fastPath (ops : ArgOps A Shape T) (self : SimpleFlyweight A Shape)
    (args : A) : Bool :=
  decide (self.ptr ≠ 0) && decide (some (ops.shapeOf args) = self.current_args_type) &&
    match dynamicCast ops (ops.shapeOf args) self.current_args_ptr with
    | none => false
    | some c => ops.eq c.v args

/-- Constructor `SimpleFlyweight(Args... args)`: a default-initialised handle on which
`New(args...)` is called. -/
def SimpleFlyweight.ctorArgs (ops : ArgOps A Shape T) (tag : Int) (g : Globals A Shape T)
    (args : A) : Option (SimpleFlyweight A Shape × Globals A Shape T) :=
  match SimpleFlyweight.New ops tag SimpleFlyweight.unbound g args with
  | none => none
  | some r => some r.2

/-- Member `GetPtr`. -/
def SimpleFlyweight.GetPtr (self : SimpleFlyweight A Shape) : Nat := self.ptr

/-- Member `ok`. -/
def SimpleFlyweight.ok (self : SimpleFlyweight A Shape) : Bool := self.ptr != 0

/-- Member `Ok`. -/
def SimpleFlyweight.Ok (self : SimpleFlyweight A Shape) : Bool := self.ptr != 0

/-- Read of the instance at address `p`; `none` if `p` is null or not allocated. -/
def Globals.load (g : Globals A Shape T) (p : Nat) : Option T :=
  if p = 0 then none else g.heap[p - 1]?

/-- Member `operator()` read as a value: `assert(ptr); return *ptr;`.  `none` is the failed
assertion. -/
def SimpleFlyweight.deref (self : SimpleFlyweight A Shape) (g : Globals A Shape T) : Option T :=
  if self.ptr ≠ 0 then g.load self.ptr else none

/-- Member `operator()`: `assert(ptr); return *ptr;`.  The result is the reference it
returns, as the address of the instance; `none` is the failed assertion. -/
def SimpleFlyweight.call (self : SimpleFlyweight A Shape) : Option Nat :=
  if self.ptr ≠ 0 then some self.ptr else none

/-- Member `operator->`: `assert(ptr); return ptr;`.  `none` is the failed assertion. -/
def SimpleFlyweight.arrow (self : SimpleFlyweight A Shape) : Option Nat :=
  if self.ptr ≠ 0 then some self.ptr else none

/-- Member `operator->` of a const handle: `assert(ptr); return ptr;`.  `none` is the failed
assertion. -/
def SimpleFlyweight.arrowConst (self : SimpleFlyweight A Shape) : Option Nat :=
  if self.ptr ≠ 0 then some self.ptr else none

/-- Assignment through the reference returned by `operator()`: `h() = v`.  `none` is the
failed assertion. -/
def SimpleFlyweight.assign (self : SimpleFlyweight A Shape) (g : Globals A Shape T) (v : T) :
    Option (Globals A Shape T) :=
  if self.ptr ≠ 0 then some ⟨g.heap.set (self.ptr - 1) v, g.data⟩ else none

/-! ## Programs using the header -/

/-- A program state: the global state and the handles the client has constructed, each with
the `tag` of its class. -/
structure World (A Shape T : Type) where
  g : Globals A Shape T
  handles : List (Int × SimpleFlyweight A Shape)

/-- The operations of the interface a client can perform on its handles. -/
inductive Op (A T : Type) where
  /-- Default-construct a handle of class `SimpleFlyweight<T, tag>`. -/
  | construct (tag : Int)
  /-- Copy-construct a handle from handle number `src`. -/
  | copy (src : Nat)
  /-- Construct a handle of class `SimpleFlyweight<T, tag>` from arguments. -/
  | constructArgs (tag : Int) (args : A)
  /-- Call `New(args...)` on handle number `i`. -/
  | bind (i : Nat) (args : A)
  /-- Overwrite the instance of handle number `i`: `h() = v`. -/
  | write (i : Nat) (v : T)

/-- State at program start. -/
def World.init : World A Shape T := ⟨Globals.init, []⟩

/-- One operation; `none` when the program aborts or names a handle that does not exist. -/
def step (ops : ArgOps A Shape T) (w : World A Shape T) : Op A T → Option (World A Shape T)
  | .construct tag => some ⟨w.g, w.handles ++ [(tag, SimpleFlyweight.unbound)]⟩
  | .copy src =>
    match w.handles[src]? with
    | none => none
    | some th => some ⟨w.g, w.handles ++ [(th.1, th.2.copy)]⟩
  | .constructArgs tag args =>
    match SimpleFlyweight.ctorArgs ops tag w.g args with
    | none => none
    | some r => some ⟨r.2, w.handles ++ [(tag, r.1)]⟩
  | .bind i args =>
    match w.handles[i]? with
    | none => none
    | some th =>
      match th.2.New ops th.1 w.g args with
      | none => none
      | some r => some ⟨r.2.2, w.handles.set i (th.1, r.2.1)⟩
  | .write i v =>
    match w.handles[i]? with
    | none => none
    | some th =>
      match th.2.assign w.g v with
      | none => none
      | some g => some ⟨g, w.handles⟩

/-- A sequence of operations, from left to right. -/
def run (ops : ArgOps A Shape T) (w : World A Shape T) : List (Op A T) → Option (World A Shape T)
  | [] => some w
  | op :: rest =>
    match step ops w op with
    | none => none
    | some w1 => run ops w1 rest

/-- States a program can be in: those some sequence of operations leads to from the start. -/
def Reachable (ops : ArgOps A Shape T) (w : World A Shape T) : Prop :=
  ∃ l, run ops World.init l = some w

/-- The state a program is in after the operations `l`, from the start (the start state
itself if the program aborts). -/
def runD (ops : ArgOps A Shape T) (l : List (Op A T)) : World A Shape T :=
  (run ops World.init l).getD World.init

end

/-- Keys `a` and `b` are equivalent under the order: neither is less than the other. -/
def equivKey (ops : ArgOps A Shape T) (a b : A) : Bool :=
  !ops.lt a b && !ops.lt b a

/-- The documented precondition on argument types: on each shape `operator<` is a strict
weak order. -/
structure StrictWeak (ops : ArgOps A Shape T) : Prop where
  irrefl : ∀ a, ops.lt a a = false
  trans : ∀ a b c, ops.shapeOf a = ops.shapeOf b → ops.shapeOf b = ops.shapeOf c →
    ops.lt a b = true → ops.lt b c = true → ops.lt a c = true
  equiv_trans : ∀ a b c, ops.shapeOf a = ops.shapeOf b → ops.shapeOf b = ops.shapeOf c →
    equivKey ops a b = true → equivKey ops b c = true → equivKey ops a c = true

/-- Tuple `operator==` only holds between keys that are equivalent under `operator<`. -/
def EqSound (ops : ArgOps A Shape T) : Prop :=
  ∀ a b, ops.shapeOf a = ops.shapeOf b → ops.eq a b = true → equivKey ops a b = true

/-! ## Consistency of reachable states -/

/-- Consistency of the global state: every map holds keys of its own shape, every stored
pointer is an allocated address, and the stored pointers are exactly the allocated addresses,
each stored once. -/
structure Globals.Inv (ops : ArgOps A Shape T) (g : Globals A Shape T) : Prop where
  shape_ok : ∀ t s e, e ∈ g.data t s → ops.shapeOf e.1.v = s
  ptr_ok : ∀ t s e, e ∈ g.data t s → 0 < e.2 ∧ e.2 ≤ g.heap.length
  ptr_inj : ∀ t s e t1 s1 e1, e ∈ g.data t s → e1 ∈ g.data t1 s1 → e.2 = e1.2 →
    t = t1 ∧ s = s1 ∧ e = e1
  ptr_surj : ∀ p, 0 < p → p ≤ g.heap.length → ∃ t s e, e ∈ g.data t s ∧ e.2 = p

/-- Every map is strictly increasing in its keys. -/
def Globals.Sorted (ops : ArgOps A Shape T) (g : Globals A Shape T) : Prop :=
  ∀ t s, (g.data t s).Pairwise (fun a b => CachedArgs.lt ops a.1 b.1 = true)

/-- Every node of `g` is a node of `g1`, in the same map and with the same pointer. -/
def Globals.Le (g g1 : Globals A Shape T) : Prop :=
  ∀ t s e, e ∈ g.data t s → e ∈ g1.data t s

/-- A handle of class `SimpleFlyweight<T, tag>` is consistent with the global state: it is
as default-constructed, or its cached shape and key pointer denote a node of the map of
`(tag, shape)` whose pointer is the one the handle holds. -/
def HandleOk (g : Globals A Shape T) (tag : Int) (h : SimpleFlyweight A Shape) : Prop :=
  h = SimpleFlyweight.unbound ∨
    ∃ s c, h.current_args_type = some s ∧ h.current_args_ptr = some c ∧
      (c, h.ptr) ∈ g.data tag s

/-- Consistency of a program state. -/
structure World.Inv (ops : ArgOps A Shape T) (w : World A Shape T) : Prop where
  globals : w.g.Inv ops
  handles : ∀ th, th ∈ w.handles → HandleOk w.g th.1 th.2

/-! ## Counting constructions -/

/-- The tag and the arguments of the call of `New` that operation `op` makes in state `w`,
if it makes one. -/
def Op.newCall (w : World A Shape T) : Op A T → Option (Int × A)
  | .bind i args => (w.handles[i]?).map (fun th => (th.1, args))
  | .constructArgs tag args => some (tag, args)
  | _ => none

section

variable [DecidableEq Shape]

/-- Operation `op` calls `New` on a handle of tag `tag` with arguments of the shape of `x`
whose key is equivalent to the key of `x` under the order. -/
def Op.uses (ops : ArgOps A Shape T) (w : World A Shape T) (op : Op A T) (tag : Int)
    (x : A) : Bool :=
  match op.newCall w with
  | some ta =>
    decide (ta.1 = tag) && decide (ops.shapeOf ta.2 = ops.shapeOf x) && equivKey ops ta.2 x
  | none => false

/-- The number of instances of `T` constructed while the operations `l` run from state `w`:
the growth of the heap. -/
def constructions (ops : ArgOps A Shape T) : World A Shape T → List (Op A T) → Nat
  | _, [] => 0
  | w, op :: rest =>
    match step ops w op with
    | none => 0
    | some w1 => (w1.g.heap.length - w.g.heap.length) + constructions ops w1 rest

/-- The number of instances of `T` constructed, while the operations `l` run from state `w`,
by the calls of `New` for tag `tag` and the shape and equivalence class of `x`. -/
def constructionsFor (ops : ArgOps A Shape T) (tag : Int) (x : A) :
    World A Shape T → List (Op A T) → Nat
  | _, [] => 0
  | w, op :: rest =>
    match step ops w op with
    | none => 0
    | some w1 =>
      (if op.uses ops w tag x then w1.g.heap.length - w.g.heap.length else 0) +
        constructionsFor ops tag x w1 rest

/-- Some call of `New` made while the operations `l` run from state `w` is for tag `tag` and
the shape and equivalence class of `x`. -/
def usedIn (ops : ArgOps A Shape T) (tag : Int) (x : A) :
    World A Shape T → List (Op A T) → Bool
  | _, [] => false
  | w, op :: rest =>
    match step ops w op with
    | none => false
    | some w1 => op.uses ops w tag x || usedIn ops tag x w1 rest

end

/-- Some node of the map of (`tag`, shape of `x`) has a key equivalent to the key of `x`. -/
def Globals.Present (ops : ArgOps A Shape T) (g : Globals A Shape T) (tag : Int) (x : A) :
    Prop :=
  ∃ e, e ∈ g.data tag (ops.shapeOf x) ∧ equivKey ops e.1.v x = true

/-- The maps of `g` hold as many nodes as the heap holds instances: all nodes are in the
maps of a finite list `ids` of instantiations, whose sizes add up to the size of the
heap. -/
def Globals.Counted (g : Globals A Shape T) : Prop :=
  ∃ ids : List (Int × Shape), ids.Nodup ∧ (∀ t s, (t, s) ∉ ids → g.data t s = []) ∧
    (ids.map (fun ts => (g.data ts.1 ts.2).length)).sum = g.heap.length

/-! ## Overwriting instances -/

/-- Operation `op` in state `w` overwrites the instance at address `p`. -/
def Op.writesTo (w : World A Shape T) (p : Nat) : Op A T → Bool
  | .write i _ =>
    match w.handles[i]? with
    | some th => decide (th.2.ptr = p)
    | none => false
  | _ => false

/-- Some operation of `l`, run from state `w`, overwrites the instance at address `p`. -/
def mutatedIn [DecidableEq Shape] (ops : ArgOps A Shape T) (p : Nat) :
    World A Shape T → List (Op A T) → Bool
  | _, [] => false
  | w, op :: rest =>
    match step ops w op with
    | none => false
    | some w1 => op.writesTo w p || mutatedIn ops p w1 rest

/-- Every map node with pointer `p` has its instance still holding the value it was
constructed with, from the arguments in the key of the node. -/
def Globals.Pristine (ops : ArgOps A Shape T) (g : Globals A Shape T) (p : Nat) : Prop :=
  ∀ t s e, e ∈ g.data t s → e.2 = p → g.load p = some (ops.construct e.1.v)

/-! ## Example instances -/

/-- Argument lists of the example client of `std::string`: `New(std::string)` and
`New(size_t, char)`, the latter building the string of `n` copies of `c`. -/
inductive DemoArgs where
  | str (s : String)
  | fill (n : Nat) (c : Char)

/-- The two argument shapes of the example client. -/
inductive DemoShape where
  | string
  | sizeChar
  deriving DecidableEq

/-- Lexicographic comparison of two character sequences by character code, which is
`operator<` of `std::string`. -/
def lexLt : List Nat → List Nat → Bool
  | [], [] => false
  | [], _ :: _ => true
  | _ :: _, [] => false
  | a :: as, b :: bs => decide (a < b) || (!decide (b < a) && lexLt as bs)

/-- The character codes of a string. -/
def codes (s : String) : List Nat := s.toList.map Char.toNat

/-- Operations of the example client; tuples compare lexicographically. -/
def demoOps : ArgOps DemoArgs DemoShape String where
  shapeOf
    | .str _ => .string
    | .fill _ _ => .sizeChar
  lt
    | .str a, .str b => lexLt (codes a) (codes b)
    | .fill n c, .fill m d => decide (n < m) || (!decide (m < n) && decide (c.toNat < d.toNat))
    | _, _ => false
  eq
    | .str a, .str b => decide (a = b)
    | .fill n c, .fill m d => decide (n = m) && decide (c = d)
    | _, _ => false
  construct
    | .str s => s
    | .fill n c => String.mk (List.replicate n c)

/-- The constructor `std::string(n, c)` throws `std::length_error` when `n` exceeds
`max_size()`, which is below `2 ^ 63`; the copy constructor is taken not to throw. -/
def demoThrows : DemoArgs → Bool
  | .str _ => false
  | .fill n _ => decide (2 ^ 63 ≤ n)

/-- A client whose argument is a record `(id, revision)` with `operator<` comparing both
fields lexicographically and `operator==` comparing the `id` only: a strict weak order, and
an `==` that holds between keys the order tells apart. -/
def coarseOps : ArgOps (Nat × Nat) Unit (Nat × Nat) where
  shapeOf _ := ()
  lt a b := decide (a.1 < b.1) || (!decide (b.1 < a.1) && decide (a.2 < b.2))
  eq a b := decide (a.1 = b.1)
  construct a := a

/-! ## The map operations -/

theorem mapFind_some (ops : ArgOps A Shape T) (m : SharedMap A) (k e : CachedArgs A × Nat)
    (h : mapFind ops m k.1 = some e) :
    e ∈ m ∧ CachedArgs.lt ops e.1 k.1 = false ∧ CachedArgs.lt ops k.1 e.1 = false := by
  induction m with
  | nil => simp [mapFind] at h
  | cons a m ih =>
    unfold mapFind at h
    by_cases h1 : CachedArgs.lt ops a.1 k.1 = true
    · simp only [h1, if_true] at h
      have := ih h
      exact ⟨List.mem_cons_of_mem _ this.1, this.2⟩
    · by_cases h2 : CachedArgs.lt ops k.1 a.1 = true
      · simp [h1, h2] at h
      · simp only [h1, h2, if_false] at h
        cases h
        simp at h1 h2
        exact ⟨List.mem_cons_self _ _, h1, h2⟩

theorem mapInsert_perm (ops : ArgOps A Shape T) (m : SharedMap A) (kv : CachedArgs A × Nat)
    (h : mapFind ops m kv.1 = none) :
    (mapInsert ops m kv).2 = kv ∧ List.Perm (mapInsert ops m kv).1 (kv :: m) := by
  induction m with
  | nil => simp [mapInsert]
  | cons a m ih =>
    unfold mapFind at h
    unfold mapInsert
    by_cases h1 : CachedArgs.lt ops a.1 kv.1 = true
    · simp only [h1, if_true] at h ⊢
      have := ih h
      refine ⟨this.1, ?_⟩
      exact (List.Perm.cons a this.2).trans (List.Perm.swap kv a m)
    · by_cases h2 : CachedArgs.lt ops kv.1 a.1 = true
      · simp [h1, h2]
      · simp [h1, h2] at h

theorem mapInsert_sorted (ops : ArgOps A Shape T) (sw : StrictWeak ops) (m : SharedMap A)
    (kv : CachedArgs A × Nat)
    (hs : ∀ e, e ∈ m → ops.shapeOf e.1.v = ops.shapeOf kv.1.v)
    (hp : m.Pairwise (fun a b => CachedArgs.lt ops a.1 b.1 = true))
    (h : mapFind ops m kv.1 = none) :
    (mapInsert ops m kv).1.Pairwise (fun a b => CachedArgs.lt ops a.1 b.1 = true) := by
  induction m with
  | nil => simp [mapInsert]
  | cons a m ih =>
    have hfind := h
    unfold mapFind at h
    unfold mapInsert
    rw [List.pairwise_cons] at hp
    by_cases h1 : CachedArgs.lt ops a.1 kv.1 = true
    · simp only [h1, if_true] at h ⊢
      have hm := ih (fun e he => hs e (List.mem_cons_of_mem _ he)) hp.2 h
      rw [List.pairwise_cons]
      refine ⟨?_, hm⟩
      intro x hx
      have := ((mapInsert_perm ops m kv h).2.mem_iff).1 hx
      rcases List.mem_cons.1 this with rfl | hx1
      · exact h1
      · exact hp.1 x hx1
    · by_cases h2 : CachedArgs.lt ops kv.1 a.1 = true
      · rw [if_neg h1, if_pos h2]
        rw [List.pairwise_cons, List.pairwise_cons]
        refine ⟨?_, hp⟩
        intro x hx
        rcases List.mem_cons.1 hx with rfl | hx1
        · exact h2
        · exact sw.trans _ _ _ (hs a (List.mem_cons_self _ _)).symm
            ((hs a (List.mem_cons_self _ _)).trans (hs x (List.mem_cons_of_mem _ hx1)).symm)
            h2 (hp.1 x hx1)
      · simp [h1, h2] at h

theorem mapFind_complete (ops : ArgOps A Shape T) (sw : StrictWeak ops) (m : SharedMap A)
    (k : CachedArgs A) (e : CachedArgs A × Nat)
    (hs : ∀ x, x ∈ m → ops.shapeOf x.1.v = ops.shapeOf k.v)
    (hp : m.Pairwise (fun a b => CachedArgs.lt ops a.1 b.1 = true))
    (he : e ∈ m) (hek : equivKey ops e.1.v k.v = true) :
    mapFind ops m k = some e := by
  induction m with
  | nil => simp at he
  | cons a m ih =>
    rw [List.pairwise_cons] at hp
    have hek1 : ops.lt e.1.v k.v = false ∧ ops.lt k.v e.1.v = false := by
      simpa [equivKey] using hek
    unfold mapFind
    by_cases h1 : CachedArgs.lt ops a.1 k = true
    · simp only [h1, if_true]
      rcases List.mem_cons.1 he with rfl | he1
      · simp [CachedArgs.lt, hek1.1] at h1
      · exact ih (fun x hx => hs x (List.mem_cons_of_mem _ hx)) hp.2 he1
    · by_cases h2 : CachedArgs.lt ops k a.1 = true
      · exfalso
        rcases List.mem_cons.1 he with rfl | he1
        · simp [CachedArgs.lt, hek1.2] at h2
        · have := sw.trans k.v a.1.v e.1.v (hs a (List.mem_cons_self _ _)).symm
            ((hs a (List.mem_cons_self _ _)).trans (hs e he).symm) h2 (hp.1 e he1)
          simp [hek1.2] at this
      · simp only [h1, h2, if_false]
        rcases List.mem_cons.1 he with rfl | he1
        · rfl
        · exfalso
          have hak : equivKey ops a.1.v k.v = true := by
            simp only [CachedArgs.lt, Bool.not_eq_true] at h1 h2
            simp [equivKey, h1, h2]
          have hke : equivKey ops k.v e.1.v = true := by
            simp [equivKey, hek1.1, hek1.2]
          have := sw.equiv_trans a.1.v k.v e.1.v (hs a (List.mem_cons_self _ _))
            (hs e he).symm hak hke
          have h3 := hp.1 e he1
          simp [equivKey, CachedArgs.lt] at this h3
          simp [h3] at this

theorem sorted_unique (ops : ArgOps A Shape T) (m : SharedMap A)
    (hp : m.Pairwise (fun a b => CachedArgs.lt ops a.1 b.1 = true))
    (a b : CachedArgs A × Nat) (ha : a ∈ m) (hb : b ∈ m)
    (hab : equivKey ops a.1.v b.1.v = true) : a = b := by
  induction m with
  | nil => simp at ha
  | cons x m ih =>
    rw [List.pairwise_cons] at hp
    have hab1 : ops.lt a.1.v b.1.v = false ∧ ops.lt b.1.v a.1.v = false := by
      simpa [equivKey] using hab
    rcases List.mem_cons.1 ha with rfl | ha1
    · rcases List.mem_cons.1 hb with rfl | hb1
      · rfl
      · have := hp.1 b hb1
        simp [CachedArgs.lt, hab1.1] at this
    · rcases List.mem_cons.1 hb with rfl | hb1
      · have := hp.1 a ha1
        simp [CachedArgs.lt, hab1.2] at this
      · exact ih hp.2 ha1 hb1

/-! ## `New` -/

section
variable [DecidableEq Shape]

theorem setData_same (g : Globals A Shape T) (tag : Int) (s : Shape) (m : SharedMap A) :
    g.setData tag s m tag s = m := by
  simp [Globals.setData]

theorem setData_other (g : Globals A Shape T) (tag : Int) (s : Shape) (m : SharedMap A)
    (t : Int) (u : Shape) (h : ¬ (t = tag ∧ u = s)) :
    g.setData tag s m t u = g.data t u := by
  simp only [Globals.setData, if_neg h]

theorem lookupOrInsert_hit (ops : ArgOps A Shape T) (tag : Int) (h : SimpleFlyweight A Shape)
    (g : Globals A Shape T) (args : A) (e : CachedArgs A × Nat)
    (hf : mapFind ops (g.data tag (ops.shapeOf args)) ⟨args⟩ = some e) :
    h.lookupOrInsert ops tag g args = (e.2, ⟨e.2, some (ops.shapeOf args), some e.1⟩, g) := by
  simp [SimpleFlyweight.lookupOrInsert, hf]

theorem lookupOrInsert_miss (ops : ArgOps A Shape T) (tag : Int) (h : SimpleFlyweight A Shape)
    (g : Globals A Shape T) (args : A)
    (hf : mapFind ops (g.data tag (ops.shapeOf args)) ⟨args⟩ = none) :
    h.lookupOrInsert ops tag g args =
      (g.heap.length + 1, ⟨g.heap.length + 1, some (ops.shapeOf args), some ⟨args⟩⟩,
        ⟨g.heap ++ [ops.construct args],
          g.setData tag (ops.shapeOf args)
            (mapInsert ops (g.data tag (ops.shapeOf args)) (⟨args⟩, g.heap.length + 1)).1⟩) := by
  have := (mapInsert_perm ops (g.data tag (ops.shapeOf args)) (⟨args⟩, g.heap.length + 1) hf).1
  simp [SimpleFlyweight.lookupOrInsert, hf, this]

theorem New_fast (ops : ArgOps A Shape T) (tag : Int) (h : SimpleFlyweight A Shape)
    (g : Globals A Shape T) (args : A) (hfp : h.fastPath ops args = true) :
    h.New ops tag g args = some (h.ptr, h, g) := by
  unfold SimpleFlyweight.fastPath at hfp
  unfold SimpleFlyweight.New
  simp only [Bool.and_eq_true, decide_eq_true_eq] at hfp
  obtain ⟨⟨h1, h2⟩, h3⟩ := hfp
  simp only [if_pos h1, if_pos h2]
  cases hd : dynamicCast ops (ops.shapeOf args) h.current_args_ptr with
  | none => simp [hd] at h3
  | some c =>
    simp only [hd] at h3
    simp only [h3, if_true]

theorem New_slow (ops : ArgOps A Shape T) (tag : Int) (h : SimpleFlyweight A Shape)
    (g : Globals A Shape T) (args : A) (hfp : h.fastPath ops args = false)
    (hc : h.ptr ≠ 0 → some (ops.shapeOf args) = h.current_args_type →
      ∃ c, h.current_args_ptr = some c ∧ ops.shapeOf c.v = ops.shapeOf args) :
    h.New ops tag g args = some (h.lookupOrInsert ops tag g args) := by
  unfold SimpleFlyweight.fastPath at hfp
  unfold SimpleFlyweight.New
  by_cases h1 : h.ptr ≠ 0
  · by_cases h2 : some (ops.shapeOf args) = h.current_args_type
    · obtain ⟨c, hc1, hc2⟩ := hc h1 h2
      have hd : dynamicCast ops (ops.shapeOf args) h.current_args_ptr = some c := by
        simp [dynamicCast, hc1, hc2]
      have he : ops.eq c.v args = false := by simpa [h1, h2, hd] using hfp
      simp only [if_pos h1, if_pos h2, hd, he]
      rfl
    · simp only [if_pos h1, if_neg h2]
  · simp only [if_neg h1]

theorem miss_mem (ops : ArgOps A Shape T) (tag : Int) (g : Globals A Shape T) (args : A)
    (hf : mapFind ops (g.data tag (ops.shapeOf args)) ⟨args⟩ = none)
    (t : Int) (u : Shape) (e : CachedArgs A × Nat) :
    e ∈ g.setData tag (ops.shapeOf args)
        (mapInsert ops (g.data tag (ops.shapeOf args)) (⟨args⟩, g.heap.length + 1)).1 t u ↔
      e ∈ g.data t u ∨ (t = tag ∧ u = ops.shapeOf args ∧ e = (⟨args⟩, g.heap.length + 1)) := by
  by_cases h : t = tag ∧ u = ops.shapeOf args
  · obtain ⟨rfl, rfl⟩ := h
    rw [setData_same]
    have := (mapInsert_perm ops (g.data t (ops.shapeOf args)) (⟨args⟩, g.heap.length + 1) hf).2
    rw [this.mem_iff, List.mem_cons]
    constructor
    · rintro (h1 | h1)
      · exact Or.inr ⟨rfl, rfl, h1⟩
      · exact Or.inl h1
    · rintro (h1 | ⟨_, _, h1⟩)
      · exact Or.inr h1
      · exact Or.inl h1
  · rw [setData_other _ _ _ _ _ _ h]
    constructor
    · exact Or.inl
    · rintro (h1 | ⟨h1, h2, _⟩)
      · exact h1
      · exact absurd ⟨h1, h2⟩ h

theorem lookupOrInsert_inv (ops : ArgOps A Shape T) (tag : Int) (h : SimpleFlyweight A Shape)
    (g : Globals A Shape T) (args : A) (hg : g.Inv ops) :
    (h.lookupOrInsert ops tag g args).2.2.Inv ops := by
  cases hf : mapFind ops (g.data tag (ops.shapeOf args)) ⟨args⟩ with
  | some e => rw [lookupOrInsert_hit ops tag h g args e hf]; exact hg
  | none =>
    rw [lookupOrInsert_miss ops tag h g args hf]
    have hm := miss_mem ops tag g args hf
    constructor
    · intro t s e he
      rcases (hm t s e).1 he with h1 | ⟨_, h2, h3⟩
      · exact hg.shape_ok t s e h1
      · rw [h3, h2]
    · intro t s e he
      simp only [List.length_append, List.length_singleton]
      rcases (hm t s e).1 he with h1 | ⟨_, _, h3⟩
      · have := hg.ptr_ok t s e h1
        exact ⟨this.1, Nat.le_succ_of_le this.2⟩
      · rw [h3]
        exact ⟨Nat.succ_pos _, Nat.le_refl _⟩
    · intro t s e t1 s1 e1 he he1 hp
      rcases (hm t s e).1 he with h1 | ⟨h1, h2, h3⟩
      · rcases (hm t1 s1 e1).1 he1 with k1 | ⟨_, _, k3⟩
        · exact hg.ptr_inj t s e t1 s1 e1 h1 k1 hp
        · have h4 : e.2 ≤ g.heap.length := (hg.ptr_ok t s e h1).2
          rw [k3] at hp
          have h5 : e.2 = g.heap.length + 1 := hp
          exfalso
          omega
      · rcases (hm t1 s1 e1).1 he1 with k1 | ⟨k1, k2, k3⟩
        · have h4 : e1.2 ≤ g.heap.length := (hg.ptr_ok t1 s1 e1 k1).2
          rw [h3] at hp
          have h5 : g.heap.length + 1 = e1.2 := hp
          exfalso
          omega
        · exact ⟨h1.trans k1.symm, h2.trans k2.symm, h3.trans k3.symm⟩
    · intro p hp0 hp
      simp only [List.length_append, List.length_singleton] at hp
      by_cases hpl : p ≤ g.heap.length
      · obtain ⟨t, s, e, he, hep⟩ := hg.ptr_surj p hp0 hpl
        exact ⟨t, s, e, (hm t s e).2 (Or.inl he), hep⟩
      · refine ⟨tag, ops.shapeOf args, (⟨args⟩, g.heap.length + 1),
          (hm _ _ _).2 (Or.inr ⟨rfl, rfl, rfl⟩), ?_⟩
        show g.heap.length + 1 = p
        omega

theorem lookupOrInsert_le (ops : ArgOps A Shape T) (tag : Int) (h : SimpleFlyweight A Shape)
    (g : Globals A Shape T) (args : A) :
    g.Le (h.lookupOrInsert ops tag g args).2.2 := by
  cases hf : mapFind ops (g.data tag (ops.shapeOf args)) ⟨args⟩ with
  | some e => rw [lookupOrInsert_hit ops tag h g args e hf]; exact fun _ _ _ he => he
  | none =>
    rw [lookupOrInsert_miss ops tag h g args hf]
    exact fun t s e he => (miss_mem ops tag g args hf t s e).2 (Or.inl he)

/-- What the registry path leaves in the handle: the pointer it returns, the shape of the
arguments, and a key pointer to a node of the map of `(tag, shape)` that holds the returned
pointer and whose key is equivalent to the arguments (it is the key of the arguments itself
when the node is new). -/
theorem lookupOrInsert_handle (ops : ArgOps A Shape T) (tag : Int)
    (h : SimpleFlyweight A Shape) (g : Globals A Shape T) (args : A) (hg : g.Inv ops) :
    (h.lookupOrInsert ops tag g args).2.1.ptr = (h.lookupOrInsert ops tag g args).1 ∧
    (h.lookupOrInsert ops tag g args).1 ≠ 0 ∧
    (h.lookupOrInsert ops tag g args).2.1.current_args_type = some (ops.shapeOf args) ∧
    ∃ c, (h.lookupOrInsert ops tag g args).2.1.current_args_ptr = some c ∧
      (c, (h.lookupOrInsert ops tag g args).1) ∈
        (h.lookupOrInsert ops tag g args).2.2.data tag (ops.shapeOf args) ∧
      (c = ⟨args⟩ ∨ (ops.lt c.v args = false ∧ ops.lt args c.v = false)) := by
  cases hf : mapFind ops (g.data tag (ops.shapeOf args)) ⟨args⟩ with
  | some e =>
    rw [lookupOrInsert_hit ops tag h g args e hf]
    have := mapFind_some ops _ (⟨args⟩, 0) e hf
    refine ⟨rfl, ?_, rfl, e.1, rfl, this.1, Or.inr this.2⟩
    have h0 : 0 < e.2 := (hg.ptr_ok _ _ e this.1).1
    exact Nat.pos_iff_ne_zero.1 h0
  | none =>
    rw [lookupOrInsert_miss ops tag h g args hf]
    refine ⟨rfl, by simp, rfl, ⟨args⟩, rfl, ?_, Or.inl rfl⟩
    exact (miss_mem ops tag g args hf _ _ _).2 (Or.inr ⟨rfl, rfl, rfl⟩)

theorem lookupOrInsert_sorted (ops : ArgOps A Shape T) (sw : StrictWeak ops) (tag : Int)
    (h : SimpleFlyweight A Shape) (g : Globals A Shape T) (args : A) (hg : g.Inv ops)
    (hs : g.Sorted ops) : (h.lookupOrInsert ops tag g args).2.2.Sorted ops := by
  cases hf : mapFind ops (g.data tag (ops.shapeOf args)) ⟨args⟩ with
  | some e => rw [lookupOrInsert_hit ops tag h g args e hf]; exact hs
  | none =>
    rw [lookupOrInsert_miss ops tag h g args hf]
    intro t u
    by_cases htu : t = tag ∧ u = ops.shapeOf args
    · obtain ⟨rfl, rfl⟩ := htu
      simp only [setData_same]
      exact mapInsert_sorted ops sw _ (⟨args⟩, g.heap.length + 1)
        (fun e he => hg.shape_ok _ _ e he) (hs _ _) hf
    · simp only [setData_other _ _ _ _ _ _ htu]
      exact hs t u

theorem lookupOrInsert_frame (ops : ArgOps A Shape T) (tag : Int)
    (h : SimpleFlyweight A Shape) (g : Globals A Shape T) (args : A) (t : Int) (u : Shape)
    (htu : ¬ (t = tag ∧ u = ops.shapeOf args)) :
    (h.lookupOrInsert ops tag g args).2.2.data t u = g.data t u := by
  cases hf : mapFind ops (g.data tag (ops.shapeOf args)) ⟨args⟩ with
  | some e => rw [lookupOrInsert_hit ops tag h g args e hf]
  | none =>
    rw [lookupOrInsert_miss ops tag h g args hf]
    exact setData_other _ _ _ _ _ _ htu

theorem lookupOrInsert_heap (ops : ArgOps A Shape T) (tag : Int)
    (h : SimpleFlyweight A Shape) (g : Globals A Shape T) (args : A) :
    (h.lookupOrInsert ops tag g args).2.2.heap = g.heap ∨
      (h.lookupOrInsert ops tag g args).2.2.heap = g.heap ++ [ops.construct args] := by
  cases hf : mapFind ops (g.data tag (ops.shapeOf args)) ⟨args⟩ with
  | some e => rw [lookupOrInsert_hit ops tag h g args e hf]; exact Or.inl rfl
  | none => rw [lookupOrInsert_miss ops tag h g args hf]; exact Or.inr rfl

end

section
variable [DecidableEq Shape]

theorem New_cases (ops : ArgOps A Shape T) (tag : Int) (h : SimpleFlyweight A Shape)
    (g : Globals A Shape T) (args : A)
    (r : Nat × SimpleFlyweight A Shape × Globals A Shape T)
    (hr : h.New ops tag g args = some r) :
    r = (h.ptr, h, g) ∨ r = h.lookupOrInsert ops tag g args := by
  unfold SimpleFlyweight.New at hr
  by_cases h1 : h.ptr ≠ 0
  · by_cases h2 : some (ops.shapeOf args) = h.current_args_type
    · simp only [if_pos h1, if_pos h2] at hr
      cases hd : dynamicCast ops (ops.shapeOf args) h.current_args_ptr with
      | none => simp [hd] at hr
      | some c =>
        simp only [hd] at hr
        by_cases h3 : ops.eq c.v args = true
        · simp only [if_pos h3, Option.some.injEq] at hr
          exact Or.inl hr.symm
        · simp only [if_neg h3, Option.some.injEq] at hr
          exact Or.inr hr.symm
    · simp only [if_pos h1, if_neg h2, Option.some.injEq] at hr
      exact Or.inr hr.symm
  · simp only [if_neg h1, Option.some.injEq] at hr
    exact Or.inr hr.symm

theorem New_frame (ops : ArgOps A Shape T) (tag : Int) (h : SimpleFlyweight A Shape)
    (g : Globals A Shape T) (args : A)
    (r : Nat × SimpleFlyweight A Shape × Globals A Shape T)
    (hr : h.New ops tag g args = some r) (t : Int) (u : Shape)
    (htu : ¬ (t = tag ∧ u = ops.shapeOf args)) : r.2.2.data t u = g.data t u := by
  rcases New_cases ops tag h g args r hr with rfl | rfl
  · rfl
  · exact lookupOrInsert_frame ops tag h g args t u htu

theorem New_heap (ops : ArgOps A Shape T) (tag : Int) (h : SimpleFlyweight A Shape)
    (g : Globals A Shape T) (args : A)
    (r : Nat × SimpleFlyweight A Shape × Globals A Shape T)
    (hr : h.New ops tag g args = some r) :
    r.2.2.heap = g.heap ∨ r.2.2.heap = g.heap ++ [ops.construct args] := by
  rcases New_cases ops tag h g args r hr with rfl | rfl
  · exact Or.inl rfl
  · exact lookupOrInsert_heap ops tag h g args

end

section
variable [DecidableEq Shape]

omit [DecidableEq Shape] in
theorem handleOk_cast (ops : ArgOps A Shape T) (tag : Int) (h : SimpleFlyweight A Shape)
    (g : Globals A Shape T) (s : Shape) (hg : g.Inv ops) (hh : HandleOk g tag h)
    (h1 : h.ptr ≠ 0) (h2 : some s = h.current_args_type) :
    ∃ c, h.current_args_ptr = some c ∧ ops.shapeOf c.v = s ∧ (c, h.ptr) ∈ g.data tag s := by
  rcases hh with rfl | ⟨s1, c, hs, hc, hm⟩
  · exact absurd rfl h1
  · rw [hs] at h2
    cases h2
    exact ⟨c, hc, hg.shape_ok _ _ _ hm, hm⟩

/-- In a consistent state `New` returns: it takes the fast path when its three tests succeed
and the registry path otherwise. -/
theorem New_eq (ops : ArgOps A Shape T) (tag : Int) (h : SimpleFlyweight A Shape)
    (g : Globals A Shape T) (args : A) (hg : g.Inv ops) (hh : HandleOk g tag h) :
    h.New ops tag g args =
      some (if h.fastPath ops args = true then (h.ptr, h, g)
        else h.lookupOrInsert ops tag g args) := by
  by_cases hfp : h.fastPath ops args = true
  · rw [if_pos hfp]
    exact New_fast ops tag h g args hfp
  · rw [if_neg hfp]
    refine New_slow ops tag h g args (by simpa using hfp) ?_
    intro h1 h2
    obtain ⟨c, hc, hs, _⟩ := handleOk_cast ops tag h g _ hg hh h1 h2
    exact ⟨c, hc, hs⟩

theorem fastPath_elim (ops : ArgOps A Shape T) (tag : Int) (h : SimpleFlyweight A Shape)
    (g : Globals A Shape T) (args : A) (hg : g.Inv ops) (hh : HandleOk g tag h)
    (hfp : h.fastPath ops args = true) :
    h.ptr ≠ 0 ∧ h.current_args_type = some (ops.shapeOf args) ∧
      ∃ c, h.current_args_ptr = some c ∧ (c, h.ptr) ∈ g.data tag (ops.shapeOf args) ∧
        ops.eq c.v args = true := by
  unfold SimpleFlyweight.fastPath at hfp
  simp only [Bool.and_eq_true, decide_eq_true_eq] at hfp
  obtain ⟨⟨h1, h2⟩, h3⟩ := hfp
  obtain ⟨c, hc, hs, hm⟩ := handleOk_cast ops tag h g _ hg hh h1 h2
  refine ⟨h1, h2.symm, c, hc, hm, ?_⟩
  simpa [dynamicCast, hc, hs] using h3

theorem New_inv (ops : ArgOps A Shape T) (tag : Int) (h : SimpleFlyweight A Shape)
    (g : Globals A Shape T) (args : A) (hg : g.Inv ops) (hh : HandleOk g tag h)
    (r : Nat × SimpleFlyweight A Shape × Globals A Shape T)
    (hr : h.New ops tag g args = some r) : r.2.2.Inv ops ∧ g.Le r.2.2 := by
  rw [New_eq ops tag h g args hg hh] at hr
  by_cases hfp : h.fastPath ops args = true
  · rw [if_pos hfp] at hr
    cases hr
    exact ⟨hg, fun _ _ _ he => he⟩
  · rw [if_neg hfp] at hr
    cases hr
    exact ⟨lookupOrInsert_inv ops tag h g args hg, lookupOrInsert_le ops tag h g args⟩

theorem New_sorted (ops : ArgOps A Shape T) (sw : StrictWeak ops) (tag : Int)
    (h : SimpleFlyweight A Shape) (g : Globals A Shape T) (args : A) (hg : g.Inv ops)
    (hh : HandleOk g tag h) (hs : g.Sorted ops)
    (r : Nat × SimpleFlyweight A Shape × Globals A Shape T)
    (hr : h.New ops tag g args = some r) : r.2.2.Sorted ops := by
  rw [New_eq ops tag h g args hg hh] at hr
  by_cases hfp : h.fastPath ops args = true
  · rw [if_pos hfp] at hr
    cases hr
    exact hs
  · rw [if_neg hfp] at hr
    cases hr
    exact lookupOrInsert_sorted ops sw tag h g args hg hs

/-- The handle after `New`: it holds the returned pointer, which is not null, its cached
shape is the shape of the arguments, and its key pointer denotes a node of the map of
`(tag, shape)` with that pointer, whose key is `==` to the arguments (fast path), or is the
key of the arguments (new node), or is equivalent to it under the order (node found). -/
theorem New_handle (ops : ArgOps A Shape T) (tag : Int) (h : SimpleFlyweight A Shape)
    (g : Globals A Shape T) (args : A) (hg : g.Inv ops) (hh : HandleOk g tag h)
    (r : Nat × SimpleFlyweight A Shape × Globals A Shape T)
    (hr : h.New ops tag g args = some r) :
    r.2.1.ptr = r.1 ∧ r.1 ≠ 0 ∧ r.2.1.current_args_type = some (ops.shapeOf args) ∧
    ∃ c, r.2.1.current_args_ptr = some c ∧ (c, r.1) ∈ r.2.2.data tag (ops.shapeOf args) ∧
      (ops.eq c.v args = true ∨ c = ⟨args⟩ ∨
        (ops.lt c.v args = false ∧ ops.lt args c.v = false)) := by
  rw [New_eq ops tag h g args hg hh] at hr
  by_cases hfp : h.fastPath ops args = true
  · rw [if_pos hfp] at hr
    cases hr
    obtain ⟨h1, h2, c, hc, hm, he⟩ := fastPath_elim ops tag h g args hg hh hfp
    exact ⟨rfl, h1, h2, c, hc, hm, Or.inl he⟩
  · rw [if_neg hfp] at hr
    cases hr
    obtain ⟨h1, h2, h3, c, hc, hm, hk⟩ := lookupOrInsert_handle ops tag h g args hg
    exact ⟨h1, h2, h3, c, hc, hm, Or.inr hk⟩

theorem New_handleOk (ops : ArgOps A Shape T) (tag : Int) (h : SimpleFlyweight A Shape)
    (g : Globals A Shape T) (args : A) (hg : g.Inv ops) (hh : HandleOk g tag h)
    (r : Nat × SimpleFlyweight A Shape × Globals A Shape T)
    (hr : h.New ops tag g args = some r) : HandleOk r.2.2 tag r.2.1 := by
  obtain ⟨h1, _, h3, c, hc, hm, _⟩ := New_handle ops tag h g args hg hh r hr
  exact Or.inr ⟨_, c, h3, hc, by rw [h1]; exact hm⟩

omit [DecidableEq Shape] in
theorem HandleOk.mono {g g1 : Globals A Shape T} {tag : Int} {h : SimpleFlyweight A Shape}
    (hh : HandleOk g tag h) (hle : g.Le g1) : HandleOk g1 tag h := by
  rcases hh with h0 | ⟨s, c, hs, hc, hm⟩
  · exact Or.inl h0
  · exact Or.inr ⟨s, c, hs, hc, hle _ _ _ hm⟩

omit [DecidableEq Shape] in
theorem Globals.Le.trans {g g1 g2 : Globals A Shape T} (h1 : g.Le g1) (h2 : g1.Le g2) :
    g.Le g2 :=
  fun t s e he => h2 t s e (h1 t s e he)

/-! ## Program states -/

theorem step_inv (ops : ArgOps A Shape T) (w w1 : World A Shape T) (op : Op A T)
    (hw : w.Inv ops) (hs : step ops w op = some w1) : w1.Inv ops ∧ w.g.Le w1.g := by
  cases op with
  | construct tag =>
    simp only [step, Option.some.injEq] at hs
    subst hs
    refine ⟨⟨hw.globals, ?_⟩, fun _ _ _ he => he⟩
    intro th hth
    rcases List.mem_append.1 hth with h1 | h1
    · exact hw.handles th h1
    · rw [List.mem_singleton] at h1
      subst h1
      exact Or.inl rfl
  | copy src =>
    simp only [step] at hs
    cases hsrc : w.handles[src]? with
    | none => simp [hsrc] at hs
    | some th0 =>
      simp only [hsrc, Option.some.injEq] at hs
      subst hs
      refine ⟨⟨hw.globals, ?_⟩, fun _ _ _ he => he⟩
      intro th hth
      rcases List.mem_append.1 hth with h1 | h1
      · exact hw.handles th h1
      · rw [List.mem_singleton] at h1
        subst h1
        exact hw.handles th0 (List.mem_iff_getElem?.2 ⟨src, hsrc⟩)
  | constructArgs tag args =>
    simp only [step, SimpleFlyweight.ctorArgs] at hs
    cases hn : SimpleFlyweight.New ops tag SimpleFlyweight.unbound w.g args with
    | none => simp [hn] at hs
    | some r =>
      simp only [hn, Option.some.injEq] at hs
      subst hs
      have h0 : HandleOk w.g tag (SimpleFlyweight.unbound : SimpleFlyweight A Shape) :=
        Or.inl rfl
      have hi := New_inv ops tag _ w.g args hw.globals h0 r hn
      refine ⟨⟨hi.1, ?_⟩, hi.2⟩
      intro th hth
      rcases List.mem_append.1 hth with h1 | h1
      · exact (hw.handles th h1).mono hi.2
      · rw [List.mem_singleton] at h1
        subst h1
        exact New_handleOk ops tag _ w.g args hw.globals h0 r hn
  | bind i args =>
    simp only [step] at hs
    cases hi : w.handles[i]? with
    | none => simp [hi] at hs
    | some th0 =>
      simp only [hi] at hs
      cases hn : th0.2.New ops th0.1 w.g args with
      | none => simp [hn] at hs
      | some r =>
        simp only [hn, Option.some.injEq] at hs
        subst hs
        have h0 := hw.handles th0 (List.mem_iff_getElem?.2 ⟨i, hi⟩)
        have hinv := New_inv ops th0.1 _ w.g args hw.globals h0 r hn
        refine ⟨⟨hinv.1, ?_⟩, hinv.2⟩
        intro th hth
        rcases List.mem_or_eq_of_mem_set hth with h1 | h1
        · exact (hw.handles th h1).mono hinv.2
        · subst h1
          exact New_handleOk ops th0.1 _ w.g args hw.globals h0 r hn
  | write i v =>
    simp only [step] at hs
    cases hi : w.handles[i]? with
    | none => simp [hi] at hs
    | some th0 =>
      simp only [hi, SimpleFlyweight.assign] at hs
      by_cases hp : th0.2.ptr ≠ 0
      · simp only [if_pos hp, Option.some.injEq] at hs
        subst hs
        refine ⟨⟨⟨hw.globals.shape_ok, ?_, hw.globals.ptr_inj, ?_⟩, hw.handles⟩,
          fun _ _ _ he => he⟩
        · intro t s e he
          simpa using hw.globals.ptr_ok t s e he
        · intro p hp0 hpl
          exact hw.globals.ptr_surj p hp0 (by simpa using hpl)
      · simp [if_neg hp] at hs

theorem step_sorted (ops : ArgOps A Shape T) (sw : StrictWeak ops) (w w1 : World A Shape T)
    (op : Op A T) (hw : w.Inv ops) (hso : w.g.Sorted ops) (hs : step ops w op = some w1) :
    w1.g.Sorted ops := by
  cases op with
  | construct tag =>
    simp only [step, Option.some.injEq] at hs
    subst hs
    exact hso
  | copy src =>
    simp only [step] at hs
    cases hsrc : w.handles[src]? with
    | none => simp [hsrc] at hs
    | some th0 =>
      simp only [hsrc, Option.some.injEq] at hs
      subst hs
      exact hso
  | constructArgs tag args =>
    simp only [step, SimpleFlyweight.ctorArgs] at hs
    cases hn : SimpleFlyweight.New ops tag SimpleFlyweight.unbound w.g args with
    | none => simp [hn] at hs
    | some r =>
      simp only [hn, Option.some.injEq] at hs
      subst hs
      exact New_sorted ops sw tag _ w.g args hw.globals (Or.inl rfl) hso r hn
  | bind i args =>
    simp only [step] at hs
    cases hi : w.handles[i]? with
    | none => simp [hi] at hs
    | some th0 =>
      simp only [hi] at hs
      cases hn : th0.2.New ops th0.1 w.g args with
      | none => simp [hn] at hs
      | some r =>
        simp only [hn, Option.some.injEq] at hs
        subst hs
        exact New_sorted ops sw th0.1 _ w.g args hw.globals
          (hw.handles th0 (List.mem_iff_getElem?.2 ⟨i, hi⟩)) hso r hn
  | write i v =>
    simp only [step] at hs
    cases hi : w.handles[i]? with
    | none => simp [hi] at hs
    | some th0 =>
      simp only [hi, SimpleFlyweight.assign] at hs
      by_cases hp : th0.2.ptr ≠ 0
      · simp only [if_pos hp, Option.some.injEq] at hs
        subst hs
        exact hso
      · simp [if_neg hp] at hs

theorem run_inv (ops : ArgOps A Shape T) (l : List (Op A T)) (w w1 : World A Shape T)
    (hw : w.Inv ops) (hr : run ops w l = some w1) : w1.Inv ops ∧ w.g.Le w1.g := by
  induction l generalizing w with
  | nil =>
    simp only [run, Option.some.injEq] at hr
    subst hr
    exact ⟨hw, fun _ _ _ he => he⟩
  | cons op rest ih =>
    simp only [run] at hr
    cases hs : step ops w op with
    | none => simp [hs] at hr
    | some w2 =>
      simp only [hs] at hr
      have h1 := step_inv ops w w2 op hw hs
      have h2 := ih w2 h1.1 hr
      exact ⟨h2.1, h1.2.trans h2.2⟩

theorem run_sorted (ops : ArgOps A Shape T) (sw : StrictWeak ops) (l : List (Op A T))
    (w w1 : World A Shape T) (hw : w.Inv ops) (hso : w.g.Sorted ops)
    (hr : run ops w l = some w1) : w1.g.Sorted ops := by
  induction l generalizing w with
  | nil =>
    simp only [run, Option.some.injEq] at hr
    subst hr
    exact hso
  | cons op rest ih =>
    simp only [run] at hr
    cases hs : step ops w op with
    | none => simp [hs] at hr
    | some w2 =>
      simp only [hs] at hr
      exact ih w2 (step_inv ops w w2 op hw hs).1 (step_sorted ops sw w w2 op hw hso hs) hr

omit [DecidableEq Shape] in
theorem init_inv (ops : ArgOps A Shape T) : (World.init : World A Shape T).Inv ops := by
  refine ⟨⟨?_, ?_, ?_, ?_⟩, ?_⟩
  · intro t s e he; simp [World.init, Globals.init] at he
  · intro t s e he; simp [World.init, Globals.init] at he
  · intro t s e t1 s1 e1 he; simp [World.init, Globals.init] at he
  · intro p hp0 hpl
    simp [World.init, Globals.init] at hpl
    omega
  · intro th hth; simp [World.init] at hth

theorem reachable_inv (ops : ArgOps A Shape T) (w : World A Shape T)
    (hw : Reachable ops w) : w.Inv ops := by
  obtain ⟨l, hl⟩ := hw
  exact (run_inv ops l _ w (init_inv ops) hl).1

theorem reachable_sorted (ops : ArgOps A Shape T) (sw : StrictWeak ops) (w : World A Shape T)
    (hw : Reachable ops w) : w.g.Sorted ops := by
  obtain ⟨l, hl⟩ := hw
  refine run_sorted ops sw l _ w (init_inv ops) ?_ hl
  intro t s
  simp [World.init, Globals.init]

theorem run_append (ops : ArgOps A Shape T) (l1 l2 : List (Op A T)) (w w1 w2 : World A Shape T)
    (h1 : run ops w l1 = some w1) (h2 : run ops w1 l2 = some w2) :
    run ops w (l1 ++ l2) = some w2 := by
  induction l1 generalizing w with
  | nil =>
    simp only [run, Option.some.injEq] at h1
    subst h1
    exact h2
  | cons op rest ih =>
    simp only [run, List.cons_append] at h1 ⊢
    cases hs : step ops w op with
    | none => simp [hs] at h1
    | some w3 =>
      simp only [hs] at h1 ⊢
      exact ih w3 h1

theorem Reachable.run {ops : ArgOps A Shape T} {w w1 : World A Shape T} (hw : Reachable ops w)
    (l : List (Op A T)) (h : run ops w l = some w1) : Reachable ops w1 := by
  obtain ⟨l0, hl0⟩ := hw
  exact ⟨l0 ++ l, run_append ops l0 l _ w w1 hl0 h⟩

theorem Reachable.step {ops : ArgOps A Shape T} {w w1 : World A Shape T} (hw : Reachable ops w)
    (op : Op A T) (h : step ops w op = some w1) : Reachable ops w1 := by
  refine hw.run [op] ?_
  simp [Flyweight.run, h]

end

/-! ## The example instances satisfy the preconditions -/

theorem lexLt_irrefl (a : List Nat) : lexLt a a = false := by
  induction a with
  | nil => rfl
  | cons x xs ih => simp [lexLt, ih]

theorem lexLt_trans (a b c : List Nat) (h1 : lexLt a b = true) (h2 : lexLt b c = true) :
    lexLt a c = true := by
  induction a generalizing b c with
  | nil =>
    cases b with
    | nil => simp [lexLt] at h1
    | cons y ys =>
      cases c with
      | nil => simp [lexLt] at h2
      | cons z zs => simp [lexLt]
  | cons x xs ih =>
    cases b with
    | nil => simp [lexLt] at h1
    | cons y ys =>
      cases c with
      | nil => simp [lexLt] at h2
      | cons z zs =>
        simp only [lexLt, Bool.or_eq_true, Bool.and_eq_true, decide_eq_true_eq,
          Bool.not_eq_true', decide_eq_false_iff_not] at h1 h2 ⊢
        rcases h1 with h1 | ⟨h1, h1r⟩
        · rcases h2 with h2 | ⟨h2, _⟩
          · left; omega
          · left; omega
        · rcases h2 with h2 | ⟨h2, h2r⟩
          · left; omega
          · right
            exact ⟨by omega, ih ys zs h1r h2r⟩

theorem lexLt_total (a b : List Nat) (h1 : lexLt a b = false) (h2 : lexLt b a = false) :
    a = b := by
  induction a generalizing b with
  | nil =>
    cases b with
    | nil => rfl
    | cons y ys => simp [lexLt] at h1
  | cons x xs ih =>
    cases b with
    | nil => simp [lexLt] at h2
    | cons y ys =>
      simp only [lexLt, Bool.or_eq_false_iff, Bool.and_eq_false_iff, decide_eq_false_iff_not,
        Bool.not_eq_false', decide_eq_true_eq] at h1 h2
      have hxy : x = y := by omega
      subst hxy
      have e1 : lexLt xs ys = false := by
        rcases h1.2 with h | h
        · omega
        · exact h
      have e2 : lexLt ys xs = false := by
        rcases h2.2 with h | h
        · omega
        · exact h
      rw [ih ys e1 e2]

theorem demoOps_strictWeak : StrictWeak demoOps := by
  constructor
  · intro a
    cases a with
    | str s => exact lexLt_irrefl _
    | fill n c => simp [demoOps]
  · intro a b c hab hbc h1 h2
    cases a <;> cases b <;> cases c <;> simp [demoOps] at hab hbc h1 h2 ⊢
    · exact lexLt_trans _ _ _ h1 h2
    · omega
  · intro a b c hab hbc h1 h2
    cases a <;> cases b <;> cases c <;> simp [demoOps, equivKey] at hab hbc h1 h2 ⊢
    · have e1 := lexLt_total _ _ h1.1 h1.2
      have e2 := lexLt_total _ _ h2.1 h2.2
      rw [e1, e2]
      exact ⟨lexLt_irrefl _, lexLt_irrefl _⟩
    · omega

theorem demoOps_eqSound : EqSound demoOps := by
  intro a b hab h
  cases a <;> cases b <;> simp [demoOps, equivKey] at hab h ⊢
  · subst h
    exact ⟨lexLt_irrefl _, lexLt_irrefl _⟩
  · obtain ⟨rfl, rfl⟩ := h
    simp

theorem coarseOps_strictWeak : StrictWeak coarseOps := by
  constructor
  · intro a
    simp [coarseOps]
  · intro a b c _ _ h1 h2
    simp [coarseOps] at h1 h2 ⊢
    omega
  · intro a b c _ _ h1 h2
    simp [coarseOps, equivKey] at h1 h2 ⊢
    omega

/-! ## Two calls of `New` -/

section
variable [DecidableEq Shape]

omit [DecidableEq Shape] in
theorem key_equiv (ops : ArgOps A Shape T) (sw : StrictWeak ops) (hes : EqSound ops)
    (c : CachedArgs A) (args : A) (hs : ops.shapeOf c.v = ops.shapeOf args)
    (h : ops.eq c.v args = true ∨ c = ⟨args⟩ ∨
      (ops.lt c.v args = false ∧ ops.lt args c.v = false)) :
    equivKey ops c.v args = true := by
  rcases h with h | h | h
  · exact hes _ _ hs h
  · subst h
    simp [equivKey, sw.irrefl]
  · simp [equivKey, h.1, h.2]

omit [DecidableEq Shape] in
theorem equivKey_symm (ops : ArgOps A Shape T) (a b : A) (h : equivKey ops a b = true) :
    equivKey ops b a = true := by
  simp only [equivKey, Bool.and_eq_true, Bool.not_eq_true'] at h ⊢
  exact ⟨h.2, h.1⟩

theorem step_bind_eq (ops : ArgOps A Shape T) (w : World A Shape T) (i : Nat)
    (th : Int × SimpleFlyweight A Shape) (args : A)
    (r : Nat × SimpleFlyweight A Shape × Globals A Shape T)
    (hi : w.handles[i]? = some th) (hn : th.2.New ops th.1 w.g args = some r) :
    step ops w (.bind i args) = some ⟨r.2.2, w.handles.set i (th.1, r.2.1)⟩ := by
  simp [step, hi, hn]

/-- Two calls of `New` in one run: the first on handle `i1` in a reachable state, the second
later on handle `i2`.  The second call returns, and in the state after it both returned
pointers are stored in the maps of their tag and shape, under keys related to the
arguments as in `New_handle`. -/
theorem two_calls (ops : ArgOps A Shape T) (w0 w2 : World A Shape T) (l : List (Op A T))
    (i1 i2 : Nat) (th1 th2 : Int × SimpleFlyweight A Shape) (x y : A)
    (r1 : Nat × SimpleFlyweight A Shape × Globals A Shape T)
    (hw : Reachable ops w0) (h1 : w0.handles[i1]? = some th1)
    (hn1 : th1.2.New ops th1.1 w0.g x = some r1)
    (hl : run ops ⟨r1.2.2, w0.handles.set i1 (th1.1, r1.2.1)⟩ l = some w2)
    (h2 : w2.handles[i2]? = some th2) :
    ∃ r2, th2.2.New ops th2.1 w2.g y = some r2 ∧ r2.2.2.Inv ops ∧
      (StrictWeak ops → r2.2.2.Sorted ops) ∧ r1.2.1.ptr = r1.1 ∧ r2.2.1.ptr = r2.1 ∧
      (∃ c1, (c1, r1.1) ∈ r2.2.2.data th1.1 (ops.shapeOf x) ∧
        (ops.eq c1.v x = true ∨ c1 = ⟨x⟩ ∨ (ops.lt c1.v x = false ∧ ops.lt x c1.v = false))) ∧
      (∃ c2, (c2, r2.1) ∈ r2.2.2.data th2.1 (ops.shapeOf y) ∧
        (ops.eq c2.v y = true ∨ c2 = ⟨y⟩ ∨ (ops.lt c2.v y = false ∧ ops.lt y c2.v = false))) := by
  have hi0 := reachable_inv ops w0 hw
  have hok1 := hi0.handles th1 (List.mem_iff_getElem?.2 ⟨i1, h1⟩)
  obtain ⟨e1, _, _, c1, _, hm1, hk1⟩ := New_handle ops th1.1 th1.2 w0.g x hi0.globals hok1 r1 hn1
  have hw1 : Reachable ops ⟨r1.2.2, w0.handles.set i1 (th1.1, r1.2.1)⟩ :=
    hw.step (.bind i1 x) (step_bind_eq ops w0 i1 th1 x r1 h1 hn1)
  have hw2 : Reachable ops w2 := hw1.run l hl
  have hi2 := reachable_inv ops w2 hw2
  have hle12 := (run_inv ops l _ w2 (reachable_inv ops _ hw1) hl).2
  have hok2 := hi2.handles th2 (List.mem_iff_getElem?.2 ⟨i2, h2⟩)
  have hn2 := New_eq ops th2.1 th2.2 w2.g y hi2.globals hok2
  refine ⟨_, hn2, ?_⟩
  have hinv := New_inv ops th2.1 th2.2 w2.g y hi2.globals hok2 _ hn2
  obtain ⟨e2, _, _, c2, _, hm2, hk2⟩ := New_handle ops th2.1 th2.2 w2.g y hi2.globals hok2 _ hn2
  refine ⟨hinv.1, ?_, e1, e2, ⟨c1, hinv.2 _ _ _ (hle12 _ _ _ hm1), hk1⟩, ⟨c2, hm2, hk2⟩⟩
  intro sw
  exact New_sorted ops sw th2.1 th2.2 w2.g y hi2.globals hok2 (reachable_sorted ops sw w2 hw2)
    _ hn2

end

/-! ## C1: sharing -/

/-- C1, amended.  For argument types whose `operator<` is a strict weak order and whose
`operator==` only holds between keys equivalent under it: in every reachable state, if
`New(x)` on a handle of tag `t` returns a pointer, then after any further operations `New(y)`
on any handle of the same tag, with `y` of the shape of `x` and equivalent to `x` under the
order, returns, and returns the same pointer. -/
theorem sharing [DecidableEq Shape] (ops : ArgOps A Shape T) (sw : StrictWeak ops)
    (hes : EqSound ops) (w0 w2 : World A Shape T) (l : List (Op A T)) (i1 i2 : Nat) (t : Int)
    (h1 h2 : SimpleFlyweight A Shape) (x y : A)
    (r1 : Nat × SimpleFlyweight A Shape × Globals A Shape T)
    (hw : Reachable ops w0) (hi1 : w0.handles[i1]? = some (t, h1))
    (hn1 : h1.New ops t w0.g x = some r1)
    (hl : run ops ⟨r1.2.2, w0.handles.set i1 (t, r1.2.1)⟩ l = some w2)
    (hi2 : w2.handles[i2]? = some (t, h2))
    (hs : ops.shapeOf x = ops.shapeOf y) (hxy : equivKey ops x y = true) :
    ∃ r2, h2.New ops t w2.g y = some r2 ∧ r2.1 = r1.1 := by
  obtain ⟨r2, hn2, hinv, hsort, _, _, ⟨c1, hm1, hk1⟩, ⟨c2, hm2, hk2⟩⟩ :=
    two_calls ops w0 w2 l i1 i2 (t, h1) (t, h2) x y r1 hw hi1 hn1 hl hi2
  refine ⟨r2, hn2, ?_⟩
  have hs1 : ops.shapeOf c1.v = ops.shapeOf x := hinv.shape_ok _ _ _ hm1
  have hs2 : ops.shapeOf c2.v = ops.shapeOf y := hinv.shape_ok _ _ _ hm2
  have e1 := key_equiv ops sw hes c1 x hs1 hk1
  have e2 := key_equiv ops sw hes c2 y hs2 hk2
  have e3 : equivKey ops c1.v y = true := sw.equiv_trans _ _ _ hs1 hs e1 hxy
  have e4 : equivKey ops c1.v c2.v = true :=
    sw.equiv_trans _ _ _ (hs1.trans hs) hs2.symm e3 (equivKey_symm ops _ _ e2)
  rw [← hs] at hm2
  have := sorted_unique ops _ (hsort sw t (ops.shapeOf x)) _ _ hm1 hm2 e4
  exact (congrArg Prod.snd this).symm

/-- Witness of `sharing`, on the strings of `main.cpp`: handle 0 bound with `"hello"`, then
a third handle bound with `" world"`, then handle 1 bound with `"hello"` gets pointer 1. -/
theorem sharing_witness :
    ∃ r2, SimpleFlyweight.unbound.New demoOps 0
        (runD demoOps [.construct 0, .construct 0, .bind 0 (.str "hello"), .construct 0,
          .bind 2 (.str " world")]).g (.str "hello") = some r2 ∧ r2.1 = 1 :=
  sharing demoOps demoOps_strictWeak demoOps_eqSound
    (runD demoOps [.construct 0, .construct 0])
    (runD demoOps [.construct 0, .construct 0, .bind 0 (.str "hello"), .construct 0,
      .bind 2 (.str " world")])
    [.construct 0, .bind 2 (.str " world")] 0 1 0 SimpleFlyweight.unbound
    SimpleFlyweight.unbound (.str "hello") (.str "hello")
    (SimpleFlyweight.unbound.lookupOrInsert demoOps 0
      (runD demoOps [.construct 0, .construct 0]).g (.str "hello"))
    ⟨[.construct 0, .construct 0], rfl⟩ rfl rfl rfl rfl rfl rfl

/-- C1 as stated fails when `operator==` holds between keys that the order tells apart.
With keys `(id, revision)`, ordered on both fields and `==` on the `id` alone: handle 1 is
bound with `(1, 0)`; then `New((1, 1))` on handle 0 returns pointer 2, and the later
`New((1, 1))` on handle 1, with the very same key, returns pointer 1. -/
theorem sharing_counterexample :
    StrictWeak coarseOps ∧
    (runD coarseOps [.construct 0, .construct 0, .bind 1 (1, 0)]).handles =
      [(0, SimpleFlyweight.unbound), (0, ⟨1, some (), some ⟨(1, 0)⟩⟩)] ∧
    (SimpleFlyweight.unbound.New coarseOps 0
      (runD coarseOps [.construct 0, .construct 0, .bind 1 (1, 0)]).g (1, 1)).map
        (fun r => r.1) = some 2 ∧
    (runD coarseOps [.construct 0, .construct 0, .bind 1 (1, 0), .bind 0 (1, 1)]).handles =
      [(0, ⟨2, some (), some ⟨(1, 1)⟩⟩), (0, ⟨1, some (), some ⟨(1, 0)⟩⟩)] ∧
    ((⟨1, some (), some ⟨(1, 0)⟩⟩ : SimpleFlyweight (Nat × Nat) Unit).New coarseOps 0
      (runD coarseOps [.construct 0, .construct 0, .bind 1 (1, 0), .bind 0 (1, 1)]).g
        (1, 1)).map (fun r => r.1) = some 1 ∧
    equivKey coarseOps (1, 1) (1, 1) = true :=
  ⟨coarseOps_strictWeak, rfl, rfl, rfl, rfl, rfl⟩

/-! ## C2: no sharing between different values -/

/-- C2, amended.  For argument types whose `operator<` is a strict weak order and whose
`operator==` only holds between keys equivalent under it: in every reachable state, if a
handle of tag `t` is bound by `New(x)` and later a handle of the same tag is bound by
`New(y)`, with `y` of the shape of `x` and not equivalent to `x` under the order, then the
second call returns and the pointers the two handles got differ. -/
theorem non_sharing [DecidableEq Shape] (ops : ArgOps A Shape T) (sw : StrictWeak ops)
    (hes : EqSound ops) (w0 w2 : World A Shape T) (l : List (Op A T)) (i1 i2 : Nat) (t : Int)
    (h1 h2 : SimpleFlyweight A Shape) (x y : A)
    (r1 : Nat × SimpleFlyweight A Shape × Globals A Shape T)
    (hw : Reachable ops w0) (hi1 : w0.handles[i1]? = some (t, h1))
    (hn1 : h1.New ops t w0.g x = some r1)
    (hl : run ops ⟨r1.2.2, w0.handles.set i1 (t, r1.2.1)⟩ l = some w2)
    (hi2 : w2.handles[i2]? = some (t, h2))
    (hs : ops.shapeOf x = ops.shapeOf y) (hxy : equivKey ops x y = false) :
    ∃ r2, h2.New ops t w2.g y = some r2 ∧ r1.2.1.ptr = r1.1 ∧ r2.2.1.ptr = r2.1 ∧
      r2.2.1.ptr ≠ r1.2.1.ptr := by
  obtain ⟨r2, hn2, hinv, _, hp1, hp2, ⟨c1, hm1, hk1⟩, ⟨c2, hm2, hk2⟩⟩ :=
    two_calls ops w0 w2 l i1 i2 (t, h1) (t, h2) x y r1 hw hi1 hn1 hl hi2
  refine ⟨r2, hn2, hp1, hp2, ?_⟩
  rw [hp1, hp2]
  intro hp
  have hs1 : ops.shapeOf c1.v = ops.shapeOf x := hinv.shape_ok _ _ _ hm1
  have hs2 : ops.shapeOf c2.v = ops.shapeOf y := hinv.shape_ok _ _ _ hm2
  have e1 := key_equiv ops sw hes c1 x hs1 hk1
  have e2 := key_equiv ops sw hes c2 y hs2 hk2
  have hc : (c2, r2.1) = (c1, r1.1) := (hinv.ptr_inj _ _ _ _ _ _ hm2 hm1 hp).2.2
  have hcc : c2 = c1 := congrArg Prod.fst hc
  rw [hcc] at e2
  have := sw.equiv_trans _ _ _ hs1.symm (hs1.trans hs) (equivKey_symm ops _ _ e1) e2
  rw [this] at hxy
  cases hxy

/-- Witness of `non_sharing`, on the strings of `main.cpp`: handle 0 is bound with
`"hello"`, then handle 2 with `" world"`; they hold pointers 1 and 2. -/
theorem non_sharing_witness :
    ∃ r2, SimpleFlyweight.unbound.New demoOps 0
        (runD demoOps [.construct 0, .construct 0, .bind 0 (.str "hello"), .construct 0]).g
        (.str " world") = some r2 ∧ r2.2.1.ptr ≠ 1 :=
  Exists.imp (fun _ h => ⟨h.1, h.2.2.2⟩) <| non_sharing demoOps demoOps_strictWeak demoOps_eqSound
    (runD demoOps [.construct 0, .construct 0])
    (runD demoOps [.construct 0, .construct 0, .bind 0 (.str "hello"), .construct 0])
    [.construct 0] 0 2 0 SimpleFlyweight.unbound
    SimpleFlyweight.unbound (.str "hello") (.str " world")
    (SimpleFlyweight.unbound.lookupOrInsert demoOps 0
      (runD demoOps [.construct 0, .construct 0]).g (.str "hello"))
    ⟨[.construct 0, .construct 0], rfl⟩ rfl rfl rfl rfl rfl rfl

/-- C2 as stated fails when `operator==` holds between keys that the order tells apart.
With keys `(id, revision)`, ordered on both fields and `==` on the `id` alone: handles 0 and
1 are bound with `(1, 0)` and hold pointer 1; then `New((1, 1))` on handle 1 returns
pointer 1 again, although `(1, 0)` is less than `(1, 1)`: handle 0, bound by `New((1, 0))`,
and handle 1, bound by `New((1, 1))`, hold the same pointer. -/
theorem non_sharing_counterexample :
    StrictWeak coarseOps ∧ equivKey coarseOps (1, 0) (1, 1) = false ∧
    (runD coarseOps [.construct 0, .construct 0, .bind 0 (1, 0), .bind 1 (1, 0)]).handles =
      [(0, ⟨1, some (), some ⟨(1, 0)⟩⟩), (0, ⟨1, some (), some ⟨(1, 0)⟩⟩)] ∧
    ((⟨1, some (), some ⟨(1, 0)⟩⟩ : SimpleFlyweight (Nat × Nat) Unit).New coarseOps 0
      (runD coarseOps [.construct 0, .construct 0, .bind 0 (1, 0), .bind 1 (1, 0)]).g
        (1, 1)).map (fun r => (r.1, r.2.1.ptr)) = some (1, 1) ∧
    (runD coarseOps [.construct 0, .construct 0, .bind 0 (1, 0), .bind 1 (1, 0),
      .bind 1 (1, 1)]).handles.map (fun th => th.2.ptr) = [1, 1] :=
  ⟨coarseOps_strictWeak, rfl, rfl, rfl, rfl⟩

/-! ## C3: counting constructions -/

section
variable [DecidableEq Shape]

theorem New_mem (ops : ArgOps A Shape T) (tag : Int) (h : SimpleFlyweight A Shape)
    (g : Globals A Shape T) (args : A)
    (r : Nat × SimpleFlyweight A Shape × Globals A Shape T)
    (hr : h.New ops tag g args = some r) (t : Int) (u : Shape) (e : CachedArgs A × Nat)
    (he : e ∈ r.2.2.data t u) :
    e ∈ g.data t u ∨ (t = tag ∧ u = ops.shapeOf args ∧ e = (⟨args⟩, g.heap.length + 1)) := by
  rcases New_cases ops tag h g args r hr with rfl | rfl
  · exact Or.inl he
  · cases hf : mapFind ops (g.data tag (ops.shapeOf args)) ⟨args⟩ with
    | some e1 =>
      rw [lookupOrInsert_hit ops tag h g args e1 hf] at he
      exact Or.inl he
    | none =>
      rw [lookupOrInsert_miss ops tag h g args hf] at he
      exact (miss_mem ops tag g args hf t u e).1 he

/-- A call of `New` for the class of `x`: it constructs nothing if the class has a node,
one instance if not, and the class has a node afterwards. -/
theorem New_present (ops : ArgOps A Shape T) (sw : StrictWeak ops) (hes : EqSound ops)
    (tag : Int) (h : SimpleFlyweight A Shape) (g : Globals A Shape T) (args x : A)
    (hg : g.Inv ops) (hso : g.Sorted ops) (hh : HandleOk g tag h)
    (r : Nat × SimpleFlyweight A Shape × Globals A Shape T)
    (hr : h.New ops tag g args = some r)
    (hsx : ops.shapeOf args = ops.shapeOf x) (hax : equivKey ops args x = true) :
    (g.Present ops tag x → r.2.2.heap.length = g.heap.length) ∧
    (¬ g.Present ops tag x → r.2.2.heap.length = g.heap.length + 1) ∧
    r.2.2.Present ops tag x := by
  have hinv1 := (New_inv ops tag h g args hg hh r hr).1
  obtain ⟨_, _, _, c, _, hm, hk⟩ := New_handle ops tag h g args hg hh r hr
  have hsc : ops.shapeOf c.v = ops.shapeOf args := hinv1.shape_ok _ _ _ hm
  have hca := key_equiv ops sw hes c args hsc hk
  have hn := New_eq ops tag h g args hg hh
  rw [hr] at hn
  refine ⟨?_, ?_, ⟨(c, r.1), by rw [← hsx]; exact hm, sw.equiv_trans _ _ _ hsc hsx hca hax⟩⟩
  · rintro ⟨e, he, hex⟩
    rw [← hsx] at he
    have hse : ops.shapeOf e.1.v = ops.shapeOf args := hg.shape_ok _ _ _ he
    have hea : equivKey ops e.1.v args = true :=
      sw.equiv_trans _ _ _ (hse.trans hsx) hsx.symm hex (equivKey_symm ops _ _ hax)
    by_cases hfp : h.fastPath ops args = true
    · rw [if_pos hfp] at hn
      cases hn
      rfl
    · rw [if_neg hfp] at hn
      have hf := mapFind_complete ops sw _ ⟨args⟩ e (fun y hy => hg.shape_ok _ _ y hy)
        (hso tag _) he hea
      rw [lookupOrInsert_hit ops tag h g args e hf] at hn
      cases hn
      rfl
  · intro hnp
    by_cases hfp : h.fastPath ops args = true
    · exfalso
      obtain ⟨_, _, c1, _, hm1, he1⟩ := fastPath_elim ops tag h g args hg hh hfp
      have hs1 : ops.shapeOf c1.v = ops.shapeOf args := hg.shape_ok _ _ _ hm1
      exact hnp ⟨(c1, h.ptr), by rw [← hsx]; exact hm1,
        sw.equiv_trans _ _ _ hs1 hsx (hes _ _ hs1 he1) hax⟩
    · rw [if_neg hfp] at hn
      cases hf : mapFind ops (g.data tag (ops.shapeOf args)) ⟨args⟩ with
      | some e =>
        exfalso
        have h1 := mapFind_some ops _ (⟨args⟩, 0) e hf
        simp only [CachedArgs.lt] at h1
        have hse : ops.shapeOf e.1.v = ops.shapeOf args := hg.shape_ok _ _ _ h1.1
        have hea : equivKey ops e.1.v args = true := by simp [equivKey, h1.2.1, h1.2.2]
        exact hnp ⟨e, by rw [← hsx]; exact h1.1, sw.equiv_trans _ _ _ hse hsx hea hax⟩
      | none =>
        rw [lookupOrInsert_miss ops tag h g args hf] at hn
        cases hn
        simp

/-- A call of `New` that is not for the class of `x` gives the class no node. -/
theorem New_absent (ops : ArgOps A Shape T)
    (tag : Int) (h : SimpleFlyweight A Shape) (g : Globals A Shape T) (args : A)
    (r : Nat × SimpleFlyweight A Shape × Globals A Shape T)
    (hr : h.New ops tag g args = some r) (t : Int) (x : A)
    (hnu : ¬ (tag = t ∧ ops.shapeOf args = ops.shapeOf x ∧ equivKey ops args x = true))
    (hnp : ¬ g.Present ops t x) : ¬ r.2.2.Present ops t x := by
  rintro ⟨e, he, hex⟩
  rcases New_mem ops tag h g args r hr _ _ e he with h1 | ⟨h1, h2, h3⟩
  · exact hnp ⟨e, h1, hex⟩
  · subst h3
    exact hnu ⟨h1.symm, h2.symm, hex⟩

theorem step_present (ops : ArgOps A Shape T) (sw : StrictWeak ops) (hes : EqSound ops)
    (w w1 : World A Shape T) (op : Op A T) (hw : w.Inv ops) (hso : w.g.Sorted ops)
    (hs : step ops w op = some w1) (tag : Int) (x : A) :
    (op.uses ops w tag x = true →
      (w.g.Present ops tag x → w1.g.heap.length = w.g.heap.length) ∧
      (¬ w.g.Present ops tag x → w1.g.heap.length = w.g.heap.length + 1) ∧
      w1.g.Present ops tag x) ∧
    (op.uses ops w tag x = false → ¬ w.g.Present ops tag x → ¬ w1.g.Present ops tag x) := by
  cases op with
  | construct t =>
    simp only [step, Option.some.injEq] at hs
    subst hs
    simp [Op.uses, Op.newCall]
  | copy src =>
    simp only [step] at hs
    cases hsrc : w.handles[src]? with
    | none => simp [hsrc] at hs
    | some th0 =>
      simp only [hsrc, Option.some.injEq] at hs
      subst hs
      simp [Op.uses, Op.newCall]
  | write i v =>
    simp only [step] at hs
    cases hi : w.handles[i]? with
    | none => simp [hi] at hs
    | some th0 =>
      simp only [hi, SimpleFlyweight.assign] at hs
      by_cases hp : th0.2.ptr ≠ 0
      · simp only [if_pos hp, Option.some.injEq] at hs
        subst hs
        simp [Op.uses, Op.newCall, Globals.Present]
      · simp [if_neg hp] at hs
  | constructArgs t args =>
    simp only [step, SimpleFlyweight.ctorArgs] at hs
    cases hn : SimpleFlyweight.New ops t SimpleFlyweight.unbound w.g args with
    | none => simp [hn] at hs
    | some r =>
      simp only [hn, Option.some.injEq] at hs
      subst hs
      simp only [Op.uses, Op.newCall, Bool.and_eq_true, decide_eq_true_eq,
        Bool.and_eq_false_imp]
      constructor
      · rintro ⟨⟨rfl, h2⟩, h3⟩
        exact New_present ops sw hes t _ w.g args x hw.globals hso (Or.inl rfl) r hn h2 h3
      · intro hnu
        refine New_absent ops t _ w.g args r hn tag x ?_
        rintro ⟨h1, h2, h3⟩
        have := hnu ⟨h1, h2⟩
        rw [h3] at this
        cases this
  | bind i args =>
    simp only [step] at hs
    cases hi : w.handles[i]? with
    | none => simp [hi] at hs
    | some th0 =>
      simp only [hi] at hs
      cases hn : th0.2.New ops th0.1 w.g args with
      | none => simp [hn] at hs
      | some r =>
        simp only [hn, Option.some.injEq] at hs
        subst hs
        have hok := hw.handles th0 (List.mem_iff_getElem?.2 ⟨i, hi⟩)
        simp only [Op.uses, Op.newCall, hi, Option.map_some', Bool.and_eq_true,
          decide_eq_true_eq, Bool.and_eq_false_imp]
        constructor
        · rintro ⟨⟨h1, h2⟩, h3⟩
          subst h1
          exact New_present ops sw hes th0.1 _ w.g args x hw.globals hso hok r hn h2 h3
        · intro hnu
          refine New_absent ops th0.1 _ w.g args r hn tag x ?_
          rintro ⟨h1, h2, h3⟩
          have := hnu ⟨h1, h2⟩
          rw [h3] at this
          cases this

theorem count_run (ops : ArgOps A Shape T) (sw : StrictWeak ops) (hes : EqSound ops)
    (tag : Int) (x : A) (l : List (Op A T)) (w w1 : World A Shape T) (hw : w.Inv ops)
    (hso : w.g.Sorted ops) (hr : run ops w l = some w1) :
    (w.g.Present ops tag x → constructionsFor ops tag x w l = 0) ∧
    (¬ w.g.Present ops tag x →
      constructionsFor ops tag x w l = if usedIn ops tag x w l = true then 1 else 0) := by
  induction l generalizing w with
  | nil => simp [constructionsFor, usedIn]
  | cons op rest ih =>
    simp only [run] at hr
    cases hs : step ops w op with
    | none => simp [hs] at hr
    | some w2 =>
      simp only [hs] at hr
      have hi2 := step_inv ops w w2 op hw hs
      have hso2 := step_sorted ops sw w w2 op hw hso hs
      have ih2 := ih w2 hi2.1 hso2 hr
      have hsp := step_present ops sw hes w w2 op hw hso hs tag x
      simp only [constructionsFor, usedIn, hs]
      cases hu : op.uses ops w tag x with
      | true =>
        obtain ⟨ha, hb, hc⟩ := hsp.1 hu
        simp only [if_true, Bool.true_or]
        constructor
        · intro hp
          rw [ha hp, ih2.1 hc]
          simp
        · intro hp
          rw [hb hp, ih2.1 hc]
          simp
      | false =>
        simp only [Bool.false_eq_true, if_false, Bool.false_or, Nat.zero_add]
        constructor
        · rintro ⟨e, he, hex⟩
          exact ih2.1 ⟨e, hi2.2 _ _ _ he, hex⟩
        · intro hp
          exact ih2.2 (hsp.2 hu hp)

theorem step_heap (ops : ArgOps A Shape T) (w w1 : World A Shape T) (op : Op A T)
    (hs : step ops w op = some w1) :
    w1.g.heap.length = w.g.heap.length ∨ w1.g.heap.length = w.g.heap.length + 1 := by
  cases op with
  | construct t =>
    simp only [step, Option.some.injEq] at hs
    subst hs
    exact Or.inl rfl
  | copy src =>
    simp only [step] at hs
    cases hsrc : w.handles[src]? with
    | none => simp [hsrc] at hs
    | some th0 =>
      simp only [hsrc, Option.some.injEq] at hs
      subst hs
      exact Or.inl rfl
  | write i v =>
    simp only [step] at hs
    cases hi : w.handles[i]? with
    | none => simp [hi] at hs
    | some th0 =>
      simp only [hi, SimpleFlyweight.assign] at hs
      by_cases hp : th0.2.ptr ≠ 0
      · simp only [if_pos hp, Option.some.injEq] at hs
        subst hs
        exact Or.inl (by simp)
      · simp [if_neg hp] at hs
  | constructArgs t args =>
    simp only [step, SimpleFlyweight.ctorArgs] at hs
    cases hn : SimpleFlyweight.New ops t SimpleFlyweight.unbound w.g args with
    | none => simp [hn] at hs
    | some r =>
      simp only [hn, Option.some.injEq] at hs
      subst hs
      rcases New_heap ops t _ w.g args r hn with h | h
      · exact Or.inl (by rw [h])
      · exact Or.inr (by simp [h])
  | bind i args =>
    simp only [step] at hs
    cases hi : w.handles[i]? with
    | none => simp [hi] at hs
    | some th0 =>
      simp only [hi] at hs
      cases hn : th0.2.New ops th0.1 w.g args with
      | none => simp [hn] at hs
      | some r =>
        simp only [hn, Option.some.injEq] at hs
        subst hs
        rcases New_heap ops th0.1 _ w.g args r hn with h | h
        · exact Or.inl (by rw [h])
        · exact Or.inr (by simp [h])

theorem constructions_eq (ops : ArgOps A Shape T) (l : List (Op A T))
    (w w1 : World A Shape T) (hr : run ops w l = some w1) :
    constructions ops w l + w.g.heap.length = w1.g.heap.length := by
  induction l generalizing w with
  | nil =>
    simp only [run, Option.some.injEq] at hr
    subst hr
    simp [constructions]
  | cons op rest ih =>
    simp only [run] at hr
    cases hs : step ops w op with
    | none => simp [hs] at hr
    | some w2 =>
      simp only [hs] at hr
      have h1 := ih w2 hr
      have h2 := step_heap ops w w2 op hs
      simp only [constructions, hs]
      omega

end

theorem sum_map_update {I : Type} (ids : List I) (f f1 : I → Nat) (a : I) (hnd : ids.Nodup)
    (ha : a ∈ ids) (hfa : f1 a = f a + 1) (hf : ∀ b, b ≠ a → f1 b = f b) :
    (ids.map f1).sum = (ids.map f).sum + 1 := by
  induction ids with
  | nil => simp at ha
  | cons b ids ih =>
    rw [List.nodup_cons] at hnd
    simp only [List.map_cons, List.sum_cons]
    by_cases hab : b = a
    · subst hab
      have : ids.map f1 = ids.map f :=
        List.map_congr_left (fun c hc => hf c (fun h => hnd.1 (h ▸ hc)))
      rw [this, hfa]
      omega
    · have ha1 : a ∈ ids := by
        rcases List.mem_cons.1 ha with h | h
        · exact absurd h.symm hab
        · exact h
      rw [ih hnd.2 ha1, hf b hab]
      omega

section
variable [DecidableEq Shape]

theorem New_counted (ops : ArgOps A Shape T) (tag : Int) (h : SimpleFlyweight A Shape)
    (g : Globals A Shape T) (args : A)
    (r : Nat × SimpleFlyweight A Shape × Globals A Shape T)
    (hr : h.New ops tag g args = some r) (hg : g.Counted) : r.2.2.Counted := by
  rcases New_cases ops tag h g args r hr with rfl | rfl
  · exact hg
  · cases hf : mapFind ops (g.data tag (ops.shapeOf args)) ⟨args⟩ with
    | some e1 =>
      rw [lookupOrInsert_hit ops tag h g args e1 hf]
      exact hg
    | none =>
      rw [lookupOrInsert_miss ops tag h g args hf]
      obtain ⟨ids, hnd, hsup, hsum⟩ := hg
      have hlen := (mapInsert_perm ops (g.data tag (ops.shapeOf args))
        (⟨args⟩, g.heap.length + 1) hf).2.length_eq
      simp only [List.length_cons] at hlen
      by_cases hmem : (tag, ops.shapeOf args) ∈ ids
      · refine ⟨ids, hnd, ?_, ?_⟩
        · intro t s hts
          have hne : ¬ (t = tag ∧ s = ops.shapeOf args) := by
            rintro ⟨rfl, rfl⟩
            exact hts hmem
          simp only [setData_other _ _ _ _ _ _ hne]
          exact hsup t s hts
        · simp only [List.length_append, List.length_singleton]
          rw [sum_map_update ids (fun ts => (g.data ts.1 ts.2).length) _
            (tag, ops.shapeOf args) hnd hmem ?_ ?_, hsum]
          · simp only [setData_same]
            exact hlen
          · intro b hb
            have hne : ¬ (b.1 = tag ∧ b.2 = ops.shapeOf args) := by
              rintro ⟨h1, h2⟩
              exact hb (Prod.ext h1 h2)
            simp only [setData_other _ _ _ _ _ _ hne]
      · refine ⟨(tag, ops.shapeOf args) :: ids, List.nodup_cons.2 ⟨hmem, hnd⟩, ?_, ?_⟩
        · intro t s hts
          have hne : ¬ (t = tag ∧ s = ops.shapeOf args) := by
            rintro ⟨rfl, rfl⟩
            exact hts (List.mem_cons_self _ _)
          simp only [setData_other _ _ _ _ _ _ hne]
          exact hsup t s (fun hh => hts (List.mem_cons_of_mem _ hh))
        · simp only [List.map_cons, List.sum_cons, setData_same, List.length_append,
            List.length_singleton]
          have hempty := hsup tag (ops.shapeOf args) hmem
          have htail : ids.map (fun ts => ((g.setData tag (ops.shapeOf args)
              (mapInsert ops (g.data tag (ops.shapeOf args))
                (⟨args⟩, g.heap.length + 1)).1) ts.1 ts.2).length) =
              ids.map (fun ts => (g.data ts.1 ts.2).length) := by
            refine List.map_congr_left ?_
            intro b hb
            have hne : ¬ (b.1 = tag ∧ b.2 = ops.shapeOf args) := by
              rintro ⟨h1, h2⟩
              exact hmem ((Prod.ext h1 h2 : b = (tag, ops.shapeOf args)) ▸ hb)
            simp only [setData_other _ _ _ _ _ _ hne]
          rw [htail, hsum, hlen, hempty]
          simp only [List.length_nil]
          omega

theorem step_counted (ops : ArgOps A Shape T) (w w1 : World A Shape T) (op : Op A T)
    (hs : step ops w op = some w1) (hg : w.g.Counted) : w1.g.Counted := by
  cases op with
  | construct t =>
    simp only [step, Option.some.injEq] at hs
    subst hs
    exact hg
  | copy src =>
    simp only [step] at hs
    cases hsrc : w.handles[src]? with
    | none => simp [hsrc] at hs
    | some th0 =>
      simp only [hsrc, Option.some.injEq] at hs
      subst hs
      exact hg
  | write i v =>
    simp only [step] at hs
    cases hi : w.handles[i]? with
    | none => simp [hi] at hs
    | some th0 =>
      simp only [hi, SimpleFlyweight.assign] at hs
      by_cases hp : th0.2.ptr ≠ 0
      · simp only [if_pos hp, Option.some.injEq] at hs
        subst hs
        obtain ⟨ids, hnd, hsup, hsum⟩ := hg
        exact ⟨ids, hnd, hsup, by simpa using hsum⟩
      · simp [if_neg hp] at hs
  | constructArgs t args =>
    simp only [step, SimpleFlyweight.ctorArgs] at hs
    cases hn : SimpleFlyweight.New ops t SimpleFlyweight.unbound w.g args with
    | none => simp [hn] at hs
    | some r =>
      simp only [hn, Option.some.injEq] at hs
      subst hs
      exact New_counted ops t _ w.g args r hn hg
  | bind i args =>
    simp only [step] at hs
    cases hi : w.handles[i]? with
    | none => simp [hi] at hs
    | some th0 =>
      simp only [hi] at hs
      cases hn : th0.2.New ops th0.1 w.g args with
      | none => simp [hn] at hs
      | some r =>
        simp only [hn, Option.some.injEq] at hs
        subst hs
        exact New_counted ops th0.1 _ w.g args r hn hg

theorem run_counted (ops : ArgOps A Shape T) (l : List (Op A T)) (w w1 : World A Shape T)
    (hr : run ops w l = some w1) (hg : w.g.Counted) : w1.g.Counted := by
  induction l generalizing w with
  | nil =>
    simp only [run, Option.some.injEq] at hr
    subst hr
    exact hg
  | cons op rest ih =>
    simp only [run] at hr
    cases hs : step ops w op with
    | none => simp [hs] at hr
    | some w2 =>
      simp only [hs] at hr
      exact ih w2 hr (step_counted ops w w2 op hs hg)

end

/-- C3, amended.  In every run from the start: for argument types whose `operator<` is a
strict weak order and whose `operator==` only holds between keys equivalent under it, the
calls of `New` for a tag, a shape and an equivalence class of keys construct exactly one
instance if there is such a call and none otherwise; and for any argument types, the number
of instances constructed in the run is the size of the heap at its end and the number of
nodes in all maps together. -/
theorem construction_count [DecidableEq Shape] (ops : ArgOps A Shape T)
    (l : List (Op A T)) (w : World A Shape T) (tag : Int) (x : A)
    (hr : run ops World.init l = some w) :
    (StrictWeak ops → EqSound ops →
      constructionsFor ops tag x World.init l =
        (if usedIn ops tag x World.init l = true then 1 else 0)) ∧
    constructions ops World.init l = w.g.heap.length ∧
    ∃ ids : List (Int × Shape), ids.Nodup ∧ (∀ t s, (t, s) ∉ ids → w.g.data t s = []) ∧
      (ids.map (fun ts => (w.g.data ts.1 ts.2).length)).sum =
        constructions ops World.init l := by
  have hc : constructions ops World.init l = w.g.heap.length := by
    have := constructions_eq ops l World.init w hr
    simpa [World.init, Globals.init] using this
  refine ⟨?_, hc, ?_⟩
  · intro sw hes
    refine (count_run ops sw hes tag x l World.init w (init_inv ops) ?_ hr).2 ?_
    · intro t s
      simp [World.init, Globals.init]
    · rintro ⟨e, he, _⟩
      simp [World.init, Globals.init] at he
  · rw [hc]
    refine run_counted ops l World.init w hr ⟨[], List.nodup_nil, ?_, ?_⟩
    · intro t s _
      rfl
    · rfl

/-- Witness of `construction_count`.  On the strings of `main.cpp`: four handles of tag 0
are bound with `"hello"`, and `"hello"` is constructed once for tag 0.  On keys
`(id, revision)` with `==` on the `id` alone, where the count by class fails: the run that
binds a handle with `(1, 0)` and then `(1, 1)` constructs one instance, the heap holds one
instance, and one list of instantiations holds all nodes, one in number. -/
theorem construction_count_witness :
    constructionsFor demoOps 0 (.str "hello") World.init
      [.construct 0, .bind 0 (.str "hello"), .construct 0, .bind 1 (.str "hello"),
       .construct 0, .bind 2 (.str " world"), .construct 1, .bind 3 (.str " world"),
       .construct 0, .bind 4 (.str "hello"), .constructArgs 0 (.str "hello"), .copy 5] = 1 ∧
    constructions coarseOps World.init [.construct 0, .bind 0 (1, 0), .bind 0 (1, 1)] = 1 ∧
    ∃ ids : List (Int × Unit), ids.Nodup ∧
      (∀ t s, (t, s) ∉ ids →
        (runD coarseOps [.construct 0, .bind 0 (1, 0), .bind 0 (1, 1)]).g.data t s = []) ∧
      (ids.map (fun ts =>
        ((runD coarseOps [.construct 0, .bind 0 (1, 0), .bind 0 (1, 1)]).g.data
          ts.1 ts.2).length)).sum = 1 :=
  ⟨(construction_count demoOps
      [.construct 0, .bind 0 (.str "hello"), .construct 0, .bind 1 (.str "hello"),
       .construct 0, .bind 2 (.str " world"), .construct 1, .bind 3 (.str " world"),
       .construct 0, .bind 4 (.str "hello"), .constructArgs 0 (.str "hello"), .copy 5]
      (runD demoOps
        [.construct 0, .bind 0 (.str "hello"), .construct 0, .bind 1 (.str "hello"),
         .construct 0, .bind 2 (.str " world"), .construct 1, .bind 3 (.str " world"),
         .construct 0, .bind 4 (.str "hello"), .constructArgs 0 (.str "hello"), .copy 5])
      0 (.str "hello") rfl).1 demoOps_strictWeak demoOps_eqSound,
    (construction_count coarseOps [.construct 0, .bind 0 (1, 0), .bind 0 (1, 1)]
      (runD coarseOps [.construct 0, .bind 0 (1, 0), .bind 0 (1, 1)]) 0 (1, 1) (by rfl)).2⟩

/-- C3 as stated fails when `operator==` holds between keys that the order tells apart.
With keys `(id, revision)`, ordered on both fields and `==` on the `id` alone: a handle is
bound with `(1, 0)` and then with `(1, 1)`; the run has a call of `New` for the class of
`(1, 1)`, and constructs no instance for it. -/
theorem construction_count_counterexample :
    StrictWeak coarseOps ∧
    (run coarseOps World.init [.construct 0, .bind 0 (1, 0), .bind 0 (1, 1)]).isSome = true ∧
    usedIn coarseOps 0 (1, 1) World.init [.construct 0, .bind 0 (1, 0), .bind 0 (1, 1)] =
      true ∧
    constructionsFor coarseOps 0 (1, 1) World.init
      [.construct 0, .bind 0 (1, 0), .bind 0 (1, 1)] = 0 ∧
    (runD coarseOps [.construct 0, .bind 0 (1, 0), .bind 0 (1, 1)]).g.heap = [(1, 0)] :=
  ⟨coarseOps_strictWeak, rfl, rfl, rfl, rfl⟩

/-! ## C4: the state after `New` -/

/-- C4, amended.  In every reachable state, for argument types whose `operator<` is a strict
weak order, `New(args...)` on any handle returns; afterwards `Ok()` and `ok()` are true, the
returned pointer is not null and is what `GetPtr()` returns, the cached shape is the shape
of the arguments, and the cached key pointer denotes a node of the map of (tag, shape of
the arguments) that stores the returned pointer and whose key is equivalent to the key of
the arguments under the order or, on the fast path, `==` to it.  When `operator==` only
holds between equivalent keys, that node is the one node of the map whose key is equivalent
to the key of the arguments. -/
theorem New_postcondition [DecidableEq Shape] (ops : ArgOps A Shape T) (sw : StrictWeak ops)
    (w : World A Shape T) (i : Nat) (t : Int) (h : SimpleFlyweight A Shape) (args : A)
    (hw : Reachable ops w) (hi : w.handles[i]? = some (t, h)) :
    ∃ r, h.New ops t w.g args = some r ∧ r.2.1.Ok = true ∧ r.2.1.ok = true ∧ r.1 ≠ 0 ∧
      r.2.1.GetPtr = r.1 ∧ r.2.1.current_args_type = some (ops.shapeOf args) ∧
      ∃ c, r.2.1.current_args_ptr = some c ∧ (c, r.1) ∈ r.2.2.data t (ops.shapeOf args) ∧
        (equivKey ops c.v args = true ∨ ops.eq c.v args = true) ∧
        (EqSound ops → equivKey ops c.v args = true ∧
          ∀ e, e ∈ r.2.2.data t (ops.shapeOf args) → equivKey ops e.1.v args = true →
            e = (c, r.1)) := by
  have hinv := reachable_inv ops w hw
  have hok := hinv.handles (t, h) (List.mem_iff_getElem?.2 ⟨i, hi⟩)
  have hn := New_eq ops t h w.g args hinv.globals hok
  refine ⟨_, hn, ?_⟩
  obtain ⟨hp, hne, hty, c, hc, hm, hk⟩ := New_handle ops t h w.g args hinv.globals hok _ hn
  have hinv1 := (New_inv ops t h w.g args hinv.globals hok _ hn).1
  have hsort := New_sorted ops sw t h w.g args hinv.globals hok (reachable_sorted ops sw w hw)
    _ hn
  have hsc : ops.shapeOf c.v = ops.shapeOf args := hinv1.shape_ok _ _ _ hm
  refine ⟨?_, ?_, hne, hp, hty, c, hc, hm, ?_, ?_⟩
  · simp only [SimpleFlyweight.Ok, hp]
    simpa using hne
  · simp only [SimpleFlyweight.ok, hp]
    simpa using hne
  · rcases hk with hk | hk | hk
    · exact Or.inr hk
    · subst hk
      left
      simp [equivKey, sw.irrefl]
    · left
      simp [equivKey, hk.1, hk.2]
  · intro hes
    have e1 := key_equiv ops sw hes c args hsc hk
    refine ⟨e1, ?_⟩
    intro e he hee
    have hse : ops.shapeOf e.1.v = ops.shapeOf args := hinv1.shape_ok _ _ _ he
    exact sorted_unique ops _ (hsort t (ops.shapeOf args)) _ _ he hm
      (sw.equiv_trans _ _ _ hse hsc.symm hee (equivKey_symm ops _ _ e1))

/-- Witness of `New_postcondition`: a default-constructed handle bound with `"hello"`. -/
theorem New_postcondition_witness :
    ∃ r, SimpleFlyweight.unbound.New demoOps 0 (runD demoOps [.construct 0]).g
        (.str "hello") = some r ∧ r.2.1.Ok = true ∧ r.2.1.ok = true ∧ r.1 ≠ 0 ∧
      r.2.1.GetPtr = r.1 ∧ r.2.1.current_args_type = some DemoShape.string ∧
      ∃ c, r.2.1.current_args_ptr = some c ∧ (c, r.1) ∈ r.2.2.data 0 DemoShape.string ∧
        (equivKey demoOps c.v (.str "hello") = true ∨
          demoOps.eq c.v (.str "hello") = true) ∧
        (EqSound demoOps → equivKey demoOps c.v (.str "hello") = true ∧
          ∀ e, e ∈ r.2.2.data 0 DemoShape.string →
            equivKey demoOps e.1.v (.str "hello") = true → e = (c, r.1)) :=
  New_postcondition demoOps demoOps_strictWeak (runD demoOps [.construct 0]) 0 0
    SimpleFlyweight.unbound (.str "hello") ⟨[.construct 0], rfl⟩ rfl

/-- C4 as stated fails when `operator==` holds between keys that the order tells apart.
With keys `(id, revision)`, ordered on both fields and `==` on the `id` alone: a handle bound
with `(1, 0)` holds pointer 1; `New((1, 1))` on it returns pointer 1 and leaves the cached
key `(1, 0)`, which is not equivalent to `(1, 1)`, and the map has no node for `(1, 1)`. -/
theorem New_postcondition_counterexample :
    StrictWeak coarseOps ∧ equivKey coarseOps (1, 0) (1, 1) = false ∧
    (runD coarseOps [.construct 0, .bind 0 (1, 0)]).handles =
      [(0, ⟨1, some (), some ⟨(1, 0)⟩⟩)] ∧
    ((⟨1, some (), some ⟨(1, 0)⟩⟩ : SimpleFlyweight (Nat × Nat) Unit).New coarseOps 0
      (runD coarseOps [.construct 0, .bind 0 (1, 0)]).g (1, 1)).map
        (fun r => (r.1, r.2.1, r.2.2.data 0 ())) =
      some (1, ⟨1, some (), some ⟨(1, 0)⟩⟩, [(⟨(1, 0)⟩, 1)]) :=
  ⟨coarseOps_strictWeak, rfl, rfl, rfl⟩

/-! ## C5: the registry path -/

/-- C5.  In every reachable state, for argument types whose `operator<` is a strict weak
order, when `New(args...)` on a handle of tag `t` does not take the fast path: if the map of
(`t`, shape of the arguments) has a node whose key is equivalent to the key of the
arguments, `New` returns the pointer of that node, the handle caches that node, and the
global state (heap and all maps) is unchanged; if the map has no such node, `New` returns
the first unused address, the heap gets exactly one new instance, constructed from the
arguments, the map gets exactly the one node (key of the arguments, new pointer), every
other map is unchanged, and the new pointer differs from every pointer stored in any map
before the call. -/
theorem lookup_or_insert [DecidableEq Shape] (ops : ArgOps A Shape T) (sw : StrictWeak ops)
    (w : World A Shape T) (i : Nat) (t : Int) (h : SimpleFlyweight A Shape) (args : A)
    (hw : Reachable ops w) (hi : w.handles[i]? = some (t, h))
    (hfp : h.fastPath ops args = false) :
    (∀ e, e ∈ w.g.data t (ops.shapeOf args) → equivKey ops e.1.v args = true →
      h.New ops t w.g args = some (e.2, ⟨e.2, some (ops.shapeOf args), some e.1⟩, w.g)) ∧
    ((∀ e, e ∈ w.g.data t (ops.shapeOf args) → equivKey ops e.1.v args = false) →
      ∃ r, h.New ops t w.g args = some r ∧ r.1 = w.g.heap.length + 1 ∧
        r.2.1 = ⟨r.1, some (ops.shapeOf args), some ⟨args⟩⟩ ∧
        r.2.2.heap = w.g.heap ++ [ops.construct args] ∧
        (∀ e, e ∈ r.2.2.data t (ops.shapeOf args) ↔
          e = (⟨args⟩, r.1) ∨ e ∈ w.g.data t (ops.shapeOf args)) ∧
        (r.2.2.data t (ops.shapeOf args)).length =
          (w.g.data t (ops.shapeOf args)).length + 1 ∧
        (∀ t1 s1, ¬ (t1 = t ∧ s1 = ops.shapeOf args) → r.2.2.data t1 s1 = w.g.data t1 s1) ∧
        (∀ t1 s1 e, e ∈ w.g.data t1 s1 → e.2 ≠ r.1)) := by
  have hinv := reachable_inv ops w hw
  have hok := hinv.handles (t, h) (List.mem_iff_getElem?.2 ⟨i, hi⟩)
  have hn := New_eq ops t h w.g args hinv.globals hok
  simp only [hfp, Bool.false_eq_true, if_false] at hn
  constructor
  · intro e he hee
    have hf := mapFind_complete ops sw _ ⟨args⟩ e (fun x hx => hinv.globals.shape_ok _ _ x hx)
      (reachable_sorted ops sw w hw t _) he hee
    rw [hn, lookupOrInsert_hit ops t h w.g args e hf]
  · intro hnone
    have hf : mapFind ops (w.g.data t (ops.shapeOf args)) ⟨args⟩ = none := by
      cases hf : mapFind ops (w.g.data t (ops.shapeOf args)) ⟨args⟩ with
      | none => rfl
      | some e =>
        have h1 := mapFind_some ops _ (⟨args⟩, 0) e hf
        have h2 := hnone e h1.1
        simp only [CachedArgs.lt] at h1
        simp [equivKey, h1.2.1, h1.2.2] at h2
    refine ⟨_, hn, ?_⟩
    rw [lookupOrInsert_miss ops t h w.g args hf]
    refine ⟨rfl, rfl, rfl, ?_, ?_, ?_, ?_⟩
    · intro e
      rw [miss_mem ops t w.g args hf]
      constructor
      · rintro (h1 | ⟨_, _, h1⟩)
        · exact Or.inr h1
        · exact Or.inl h1
      · rintro (h1 | h1)
        · exact Or.inr ⟨rfl, rfl, h1⟩
        · exact Or.inl h1
    · simp only [setData_same]
      have := (mapInsert_perm ops _ (⟨args⟩, w.g.heap.length + 1) hf).2.length_eq
      simpa using this
    · intro t1 s1 hts
      exact setData_other _ _ _ _ _ _ hts
    · intro t1 s1 e he
      have := (hinv.globals.ptr_ok t1 s1 e he).2
      show e.2 ≠ w.g.heap.length + 1
      omega

/-- Witness of `lookup_or_insert`, first part: with `"hello"` in the map at pointer 1, `New`
on a default-constructed handle returns pointer 1 and changes no global state. -/
theorem lookup_or_insert_witness :
    SimpleFlyweight.unbound.New demoOps 0
        (runD demoOps [.construct 0, .bind 0 (.str "hello"), .construct 0]).g (.str "hello") =
      some (1, ⟨1, some DemoShape.string, some ⟨.str "hello"⟩⟩,
        (runD demoOps [.construct 0, .bind 0 (.str "hello"), .construct 0]).g) :=
  (lookup_or_insert demoOps demoOps_strictWeak
    (runD demoOps [.construct 0, .bind 0 (.str "hello"), .construct 0]) 1 0
    SimpleFlyweight.unbound (.str "hello")
    ⟨[.construct 0, .bind 0 (.str "hello"), .construct 0], rfl⟩ rfl rfl).1
    (⟨.str "hello"⟩, 1) (List.mem_singleton.2 rfl) rfl

/-! ## C6: tags -/

theorem bound_node (g : Globals A Shape T) (tag : Int) (h : SimpleFlyweight A Shape)
    (hh : HandleOk g tag h) (hb : h.Ok = true) :
    ∃ s c, h.current_args_type = some s ∧ h.current_args_ptr = some c ∧
      (c, h.ptr) ∈ g.data tag s := by
  rcases hh with rfl | hh
  · simp [SimpleFlyweight.Ok, SimpleFlyweight.unbound] at hb
  · exact hh

/-- C6.  In every reachable state, two handles of classes with different tags that both
hold an instance hold different pointers, and `New` on a handle of tag `t1` returns and
leaves every map of any other tag `t2` as it was. -/
theorem tag_isolation [DecidableEq Shape] (ops : ArgOps A Shape T) (w : World A Shape T)
    (i j : Nat) (t1 t2 : Int) (h1 h2 : SimpleFlyweight A Shape) (hw : Reachable ops w)
    (hi : w.handles[i]? = some (t1, h1)) (hj : w.handles[j]? = some (t2, h2))
    (ht : t1 ≠ t2) :
    (h1.Ok = true → h2.Ok = true → h1.GetPtr ≠ h2.GetPtr) ∧
    ∀ args, ∃ r, h1.New ops t1 w.g args = some r ∧ ∀ s, r.2.2.data t2 s = w.g.data t2 s := by
  have hinv := reachable_inv ops w hw
  have hok1 := hinv.handles (t1, h1) (List.mem_iff_getElem?.2 ⟨i, hi⟩)
  have hok2 := hinv.handles (t2, h2) (List.mem_iff_getElem?.2 ⟨j, hj⟩)
  constructor
  · intro hb1 hb2 hp
    obtain ⟨s1, c1, _, _, hm1⟩ := bound_node w.g t1 h1 hok1 hb1
    obtain ⟨s2, c2, _, _, hm2⟩ := bound_node w.g t2 h2 hok2 hb2
    exact ht (hinv.globals.ptr_inj _ _ _ _ _ _ hm1 hm2 hp).1
  · intro args
    have hn := New_eq ops t1 h1 w.g args hinv.globals hok1
    refine ⟨_, hn, ?_⟩
    intro s
    exact New_frame ops t1 h1 w.g args _ hn t2 s (fun h => ht h.1.symm)

/-- Witness of `tag_isolation`, on `main.cpp`: handles `c` (tag 0) and `d` (tag 1), both
bound with `" world"`. -/
theorem tag_isolation_witness :
    ((⟨2, some DemoShape.string, some ⟨.str " world"⟩⟩ : SimpleFlyweight DemoArgs DemoShape).Ok
        = true →
      (⟨3, some DemoShape.string, some ⟨.str " world"⟩⟩ : SimpleFlyweight DemoArgs DemoShape).Ok
        = true →
      (⟨2, some DemoShape.string, some ⟨.str " world"⟩⟩ :
          SimpleFlyweight DemoArgs DemoShape).GetPtr ≠
        (⟨3, some DemoShape.string, some ⟨.str " world"⟩⟩ :
          SimpleFlyweight DemoArgs DemoShape).GetPtr) ∧
    ∀ args, ∃ r,
      (⟨2, some DemoShape.string, some ⟨.str " world"⟩⟩ :
          SimpleFlyweight DemoArgs DemoShape).New demoOps 0
        (runD demoOps [.construct 0, .bind 0 (.str "hello"), .construct 0,
          .bind 1 (.str " world"), .construct 1, .bind 2 (.str " world")]).g args = some r ∧
      ∀ s, r.2.2.data 1 s =
        (runD demoOps [.construct 0, .bind 0 (.str "hello"), .construct 0,
          .bind 1 (.str " world"), .construct 1, .bind 2 (.str " world")]).g.data 1 s :=
  tag_isolation demoOps
    (runD demoOps [.construct 0, .bind 0 (.str "hello"), .construct 0,
      .bind 1 (.str " world"), .construct 1, .bind 2 (.str " world")]) 1 2 0 1 _ _
    ⟨[.construct 0, .bind 0 (.str "hello"), .construct 0,
      .bind 1 (.str " world"), .construct 1, .bind 2 (.str " world")], rfl⟩ rfl rfl
    (by decide)

/-! ## C7: shapes -/

theorem New_congr [DecidableEq Shape] (ops : ArgOps A Shape T) (tag : Int)
    (h : SimpleFlyweight A Shape) (g g1 : Globals A Shape T) (args : A)
    (hh : g1.heap = g.heap)
    (hd : g1.data tag (ops.shapeOf args) = g.data tag (ops.shapeOf args)) :
    (h.New ops tag g1 args).map
        (fun r => (r.1, r.2.1, r.2.2.heap, r.2.2.data tag (ops.shapeOf args))) =
      (h.New ops tag g args).map
        (fun r => (r.1, r.2.1, r.2.2.heap, r.2.2.data tag (ops.shapeOf args))) := by
  have hl : (fun r : Nat × SimpleFlyweight A Shape × Globals A Shape T =>
        (r.1, r.2.1, r.2.2.heap, r.2.2.data tag (ops.shapeOf args)))
        (h.lookupOrInsert ops tag g1 args) =
      (fun r : Nat × SimpleFlyweight A Shape × Globals A Shape T =>
        (r.1, r.2.1, r.2.2.heap, r.2.2.data tag (ops.shapeOf args)))
        (h.lookupOrInsert ops tag g args) := by
    cases hf : mapFind ops (g.data tag (ops.shapeOf args)) ⟨args⟩ with
    | some e =>
      rw [lookupOrInsert_hit ops tag h g args e hf,
        lookupOrInsert_hit ops tag h g1 args e (by rw [hd]; exact hf)]
      simp [hh, hd]
    | none =>
      rw [lookupOrInsert_miss ops tag h g args hf,
        lookupOrInsert_miss ops tag h g1 args (by rw [hd]; exact hf)]
      simp [hh, hd, setData_same]
  unfold SimpleFlyweight.New
  by_cases h1 : h.ptr ≠ 0
  · by_cases h2 : some (ops.shapeOf args) = h.current_args_type
    · simp only [if_pos h1, if_pos h2]
      cases dynamicCast ops (ops.shapeOf args) h.current_args_ptr with
      | none => rfl
      | some c =>
        by_cases h3 : ops.eq c.v args = true
        · simp only [if_pos h3, Option.map_some', hh, hd]
        · simp only [if_neg h3, Option.map_some']
          exact congrArg some hl
    · simp only [if_pos h1, if_neg h2, Option.map_some']
      exact congrArg some hl
  · simp only [if_neg h1, Option.map_some']
    exact congrArg some hl

/-- C7.  In every reachable state, if a handle of tag `t` is bound by `New(x)` and later a
handle of the same tag is bound by `New(y)` with `y` of another shape than `x`, then the
second call returns and the pointers the two handles got differ, whatever the values are.
`New(y)` leaves the map of every other tag or shape as it was, and what it returns and does
is the same in any global state with the same heap and the same map of (`t`, shape of
`y`). -/
theorem shape_sensitivity [DecidableEq Shape] (ops : ArgOps A Shape T)
    (w0 w2 : World A Shape T) (l : List (Op A T)) (i1 i2 : Nat) (t : Int)
    (h1 h2 : SimpleFlyweight A Shape) (x y : A)
    (r1 : Nat × SimpleFlyweight A Shape × Globals A Shape T)
    (hw : Reachable ops w0) (hi1 : w0.handles[i1]? = some (t, h1))
    (hn1 : h1.New ops t w0.g x = some r1)
    (hl : run ops ⟨r1.2.2, w0.handles.set i1 (t, r1.2.1)⟩ l = some w2)
    (hi2 : w2.handles[i2]? = some (t, h2))
    (hs : ops.shapeOf x ≠ ops.shapeOf y) :
    ∃ r2, h2.New ops t w2.g y = some r2 ∧ r1.2.1.ptr = r1.1 ∧ r2.2.1.ptr = r2.1 ∧
      r2.2.1.ptr ≠ r1.2.1.ptr ∧
      (∀ t1 s1, ¬ (t1 = t ∧ s1 = ops.shapeOf y) → r2.2.2.data t1 s1 = w2.g.data t1 s1) ∧
      (∀ g : Globals A Shape T, g.heap = w2.g.heap →
        g.data t (ops.shapeOf y) = w2.g.data t (ops.shapeOf y) →
        (h2.New ops t g y).map
            (fun r => (r.1, r.2.1, r.2.2.heap, r.2.2.data t (ops.shapeOf y))) =
          some (r2.1, r2.2.1, r2.2.2.heap, r2.2.2.data t (ops.shapeOf y))) := by
  obtain ⟨r2, hn2, hinv, _, hp1, hp2, ⟨c1, hm1, _⟩, ⟨c2, hm2, _⟩⟩ :=
    two_calls ops w0 w2 l i1 i2 (t, h1) (t, h2) x y r1 hw hi1 hn1 hl hi2
  refine ⟨r2, hn2, hp1, hp2, ?_, ?_, ?_⟩
  · rw [hp1, hp2]
    intro hp
    exact hs (hinv.ptr_inj _ _ _ _ _ _ hm2 hm1 hp).2.1.symm
  · intro t1 s1 hts
    exact New_frame ops t h2 w2.g y r2 hn2 t1 s1 hts
  · intro g hh hd
    rw [New_congr ops t h2 w2.g g y hh hd, hn2]
    rfl

/-- Witness of `shape_sensitivity`: handle 0 bound with the string `"aa"`, handle 1 with
`(2, 'a')`, which constructs the string `"aa"` too; handle 0 holds pointer 1, handle 1 does
not. -/
theorem shape_sensitivity_witness :
    ∃ r2, SimpleFlyweight.unbound.New demoOps 0
        (runD demoOps [.construct 0, .construct 0, .bind 0 (.str "aa")]).g (.fill 2 'a') =
          some r2 ∧ r2.2.1.ptr ≠ 1 :=
  Exists.imp (fun _ h => ⟨h.1, h.2.2.2.1⟩) <|
    shape_sensitivity demoOps (runD demoOps [.construct 0, .construct 0])
      (runD demoOps [.construct 0, .construct 0, .bind 0 (.str "aa")]) [] 0 1 0
      SimpleFlyweight.unbound SimpleFlyweight.unbound (.str "aa") (.fill 2 'a')
      (SimpleFlyweight.unbound.lookupOrInsert demoOps 0
        (runD demoOps [.construct 0, .construct 0]).g (.str "aa"))
      ⟨[.construct 0, .construct 0], rfl⟩ rfl rfl rfl rfl (by decide)

/-! ## C8: rebinding one handle leaves the others alone -/

theorem load_mono (g g1 : Globals A Shape T) (x : T) (p : Nat) (hp : p ≤ g.heap.length)
    (hh : g1.heap = g.heap ∨ g1.heap = g.heap ++ [x]) (hp0 : 0 < p) :
    ∃ v, g.load p = some v ∧ g1.load p = some v := by
  have hlt : p - 1 < g.heap.length := by omega
  refine ⟨g.heap[p - 1], ?_, ?_⟩
  · simp only [Globals.load, if_neg (Nat.pos_iff_ne_zero.1 hp0)]
    exact List.getElem?_eq_getElem hlt
  · simp only [Globals.load, if_neg (Nat.pos_iff_ne_zero.1 hp0)]
    rcases hh with hh | hh
    · rw [hh]
      exact List.getElem?_eq_getElem hlt
    · rw [hh, List.getElem?_append_left hlt]
      exact List.getElem?_eq_getElem hlt

/-- C8.  In every reachable state, `New(args...)` on handle `iA` returns and leaves every
other handle `iB` with the same pointer, cached shape and cached key pointer; if `iB` holds
an instance, dereferencing it gives the same value after the call as before, and the node of
`iB` is still in its map with the same pointer. -/
theorem rebind_independence [DecidableEq Shape] (ops : ArgOps A Shape T)
    (w : World A Shape T) (iA iB : Nat) (tA : Int) (hA : SimpleFlyweight A Shape) (args : A)
    (hw : Reachable ops w) (hiA : w.handles[iA]? = some (tA, hA)) (hne : iB ≠ iA) :
    ∃ w1, step ops w (.bind iA args) = some w1 ∧ w1.handles[iB]? = w.handles[iB]? ∧
      ∀ tB hB, w.handles[iB]? = some (tB, hB) → hB.Ok = true →
        (∃ v, hB.deref w.g = some v ∧ hB.deref w1.g = some v) ∧
        ∃ s c, hB.current_args_type = some s ∧ hB.current_args_ptr = some c ∧
          (c, hB.ptr) ∈ w.g.data tB s ∧ (c, hB.ptr) ∈ w1.g.data tB s := by
  have hinv := reachable_inv ops w hw
  have hokA := hinv.handles (tA, hA) (List.mem_iff_getElem?.2 ⟨iA, hiA⟩)
  have hn := New_eq ops tA hA w.g args hinv.globals hokA
  refine ⟨_, step_bind_eq ops w iA (tA, hA) args _ hiA hn, ?_, ?_⟩
  · exact List.getElem?_set_ne (Ne.symm hne)
  · intro tB hB hiB hb
    have hokB := hinv.handles (tB, hB) (List.mem_iff_getElem?.2 ⟨iB, hiB⟩)
    obtain ⟨s, c, hs, hc, hm⟩ := bound_node w.g tB hB hokB hb
    have hle := (New_inv ops tA hA w.g args hinv.globals hokA _ hn).2
    have hpk := hinv.globals.ptr_ok _ _ _ hm
    refine ⟨?_, s, c, hs, hc, hm, hle _ _ _ hm⟩
    have hp0 : hB.ptr ≠ 0 := Nat.pos_iff_ne_zero.1 hpk.1
    simp only [SimpleFlyweight.deref, if_pos hp0]
    exact load_mono w.g _ (ops.construct args) hB.ptr hpk.2
      (New_heap ops tA hA w.g args _ hn) hpk.1

/-- Witness of `rebind_independence`: handles 0 and 1 share `"hello"`; handle 0 is rebound
with `" world"`, handle 1 still reads `"hello"`. -/
theorem rebind_independence_witness :
    ∃ w1, step demoOps (runD demoOps [.construct 0, .construct 0, .bind 0 (.str "hello"),
        .bind 1 (.str "hello")]) (.bind 0 (.str " world")) = some w1 ∧
      w1.handles[1]? = some (0, ⟨1, some DemoShape.string, some ⟨.str "hello"⟩⟩) ∧
      ∃ v, (⟨1, some DemoShape.string, some ⟨.str "hello"⟩⟩ :
          SimpleFlyweight DemoArgs DemoShape).deref
            (runD demoOps [.construct 0, .construct 0, .bind 0 (.str "hello"),
              .bind 1 (.str "hello")]).g = some v ∧
        (⟨1, some DemoShape.string, some ⟨.str "hello"⟩⟩ :
          SimpleFlyweight DemoArgs DemoShape).deref w1.g = some v :=
  (rebind_independence demoOps
    (runD demoOps [.construct 0, .construct 0, .bind 0 (.str "hello"),
      .bind 1 (.str "hello")]) 0 1 0 _ (.str " world")
    ⟨[.construct 0, .construct 0, .bind 0 (.str "hello"), .bind 1 (.str "hello")], rfl⟩
    rfl (by decide)).imp
    (fun _ h => ⟨h.1, h.2.1, (h.2.2 0 _ rfl rfl).1⟩)

/-! ## C9: copies -/

/-- C9.  Copy-constructing from handle `src`, in any state: the new handle has the tag,
pointer, cached shape and cached key pointer of the source, so `Ok()` and `GetPtr()` agree;
the global state (heap and all maps) and all existing handles, the source among them, are
unchanged. -/
theorem copy_aliasing [DecidableEq Shape] (ops : ArgOps A Shape T) (w : World A Shape T)
    (src : Nat) (th : Int × SimpleFlyweight A Shape) (hsrc : w.handles[src]? = some th) :
    ∃ w1, step ops w (.copy src) = some w1 ∧
      w1.handles[w.handles.length]? = some (th.1, th.2.copy) ∧
      th.2.copy.ptr = th.2.ptr ∧ th.2.copy.current_args_type = th.2.current_args_type ∧
      th.2.copy.current_args_ptr = th.2.current_args_ptr ∧ th.2.copy.Ok = th.2.Ok ∧
      th.2.copy.GetPtr = th.2.GetPtr ∧ w1.g = w.g ∧ w1.handles[src]? = some th ∧
      (∀ j, j < w.handles.length → w1.handles[j]? = w.handles[j]?) ∧
      w1.handles.length = w.handles.length + 1 := by
  refine ⟨⟨w.g, w.handles ++ [(th.1, th.2.copy)]⟩, by simp [step, hsrc], ?_, rfl, rfl, rfl,
    rfl, rfl, rfl, ?_, ?_, ?_⟩
  · simp
  · have hlt : src < w.handles.length := by
      rcases Nat.lt_or_ge src w.handles.length with h | h
      · exact h
      · rw [List.getElem?_eq_none h] at hsrc
        cases hsrc
    show (w.handles ++ [(th.1, th.2.copy)])[src]? = some th
    rw [List.getElem?_append_left hlt, hsrc]
  · intro j hj
    show (w.handles ++ [(th.1, th.2.copy)])[j]? = w.handles[j]?
    rw [List.getElem?_append_left hj]
  · simp

/-- Witness of `copy_aliasing`, on `main.cpp`: `g` copy-constructed from `f`, which is bound
with `"hello"` at pointer 1. -/
theorem copy_aliasing_witness :
    ∃ w1, step demoOps (runD demoOps [.constructArgs 0 (.str "hello")]) (.copy 0) = some w1 ∧
      w1.handles[1]? = some (0, ⟨1, some DemoShape.string, some ⟨.str "hello"⟩⟩) ∧
      w1.g = (runD demoOps [.constructArgs 0 (.str "hello")]).g :=
  (copy_aliasing demoOps (runD demoOps [.constructArgs 0 (.str "hello")]) 0
    (0, ⟨1, some DemoShape.string, some ⟨.str "hello"⟩⟩) rfl).imp
    (fun _ h => ⟨h.1, h.2.1, h.2.2.2.2.2.2.2.1⟩)

/-! ## C10: the fast path -/

/-- C10.  In every reachable state, for argument types whose `operator<` is a strict weak
order: if a handle holds an instance, the shape of the arguments is its cached shape and the
key of the arguments is equivalent under the order to its cached key, then `New` returns the
pointer the handle holds and the handle and the global state (heap and all maps) are the
same after the call as before. -/
theorem fast_path [DecidableEq Shape] (ops : ArgOps A Shape T) (sw : StrictWeak ops)
    (w : World A Shape T) (i : Nat) (t : Int) (h : SimpleFlyweight A Shape)
    (c : CachedArgs A) (args : A) (hw : Reachable ops w) (hi : w.handles[i]? = some (t, h))
    (hb : h.Ok = true) (hty : h.current_args_type = some (ops.shapeOf args))
    (hc : h.current_args_ptr = some c) (heq : equivKey ops c.v args = true) :
    h.New ops t w.g args = some (h.GetPtr, h, w.g) := by
  have hinv := reachable_inv ops w hw
  have hok := hinv.handles (t, h) (List.mem_iff_getElem?.2 ⟨i, hi⟩)
  rw [New_eq ops t h w.g args hinv.globals hok]
  by_cases hfp : h.fastPath ops args = true
  · rw [if_pos hfp]
    rfl
  · rw [if_neg hfp]
    obtain ⟨s1, c1, hs1, hc1, hm⟩ := bound_node w.g t h hok hb
    rw [hty] at hs1
    rw [hc] at hc1
    cases hs1
    cases hc1
    have hf := mapFind_complete ops sw _ ⟨args⟩ (c, h.ptr)
      (fun x hx => hinv.globals.shape_ok _ _ x hx) (reachable_sorted ops sw w hw t _) hm heq
    rw [lookupOrInsert_hit ops t h w.g args _ hf]
    cases h with
    | mk p ty k =>
      simp only at hty hc
      subst hty
      subst hc
      rfl

/-- Witness of `fast_path`: a handle bound with `"hello"` is bound with `"hello"` again. -/
theorem fast_path_witness :
    (⟨1, some DemoShape.string, some ⟨.str "hello"⟩⟩ :
        SimpleFlyweight DemoArgs DemoShape).New demoOps 0
          (runD demoOps [.construct 0, .bind 0 (.str "hello")]).g (.str "hello") =
      some (1, ⟨1, some DemoShape.string, some ⟨.str "hello"⟩⟩,
        (runD demoOps [.construct 0, .bind 0 (.str "hello")]).g) :=
  fast_path demoOps demoOps_strictWeak (runD demoOps [.construct 0, .bind 0 (.str "hello")])
    0 0 _ ⟨.str "hello"⟩ (.str "hello") ⟨[.construct 0, .bind 0 (.str "hello")], rfl⟩
    rfl rfl rfl rfl rfl

/-! ## C11: dereferencing -/

theorem load_some (g : Globals A Shape T) (p : Nat) (hp0 : 0 < p) (hp : p ≤ g.heap.length) :
    ∃ v, g.load p = some v := by
  have hlt : p - 1 < g.heap.length := by omega
  refine ⟨g.heap[p - 1], ?_⟩
  simp only [Globals.load, if_neg (Nat.pos_iff_ne_zero.1 hp0)]
  exact List.getElem?_eq_getElem hlt

/-- C11.  In every reachable state, for every handle: `operator()` and both `operator->`
fail, by their assertion, exactly when the pointer of the handle is null; otherwise
`operator()` returns a reference to the instance at that pointer, which exists and is what
reading through it yields, and `operator->` returns the pointer.  A default-constructed
handle has `Ok()` and `ok()` false and `GetPtr()` null, and dereferencing it fails.
`GetPtr`, `ok` and `Ok` return in every state: the pointer, and whether it is not null.
All of them are functions of the state that return no new state. -/
theorem deref_fails_iff_unbound [DecidableEq Shape] (ops : ArgOps A Shape T)
    (w : World A Shape T) (i : Nat) (t : Int) (h : SimpleFlyweight A Shape)
    (hw : Reachable ops w) (hi : w.handles[i]? = some (t, h)) :
    (h.call = none ↔ h.ptr = 0) ∧ (h.arrow = none ↔ h.ptr = 0) ∧
    (h.arrowConst = none ↔ h.ptr = 0) ∧ (h.deref w.g = none ↔ h.ptr = 0) ∧
    (h.ptr ≠ 0 → h.call = some h.ptr ∧ h.arrow = some h.ptr ∧ h.arrowConst = some h.ptr ∧
      ∃ v, w.g.load h.ptr = some v ∧ h.deref w.g = some v) ∧
    ((SimpleFlyweight.unbound : SimpleFlyweight A Shape).Ok = false ∧
      (SimpleFlyweight.unbound : SimpleFlyweight A Shape).ok = false ∧
      (SimpleFlyweight.unbound : SimpleFlyweight A Shape).GetPtr = 0 ∧
      (SimpleFlyweight.unbound : SimpleFlyweight A Shape).call = none ∧
      (SimpleFlyweight.unbound : SimpleFlyweight A Shape).arrow = none ∧
      (SimpleFlyweight.unbound : SimpleFlyweight A Shape).arrowConst = none ∧
      (SimpleFlyweight.unbound : SimpleFlyweight A Shape).deref w.g = none) ∧
    (h.GetPtr = h.ptr ∧ h.ok = decide (h.ptr ≠ 0) ∧ h.Ok = decide (h.ptr ≠ 0)) := by
  have hinv := reachable_inv ops w hw
  have hok := hinv.handles (t, h) (List.mem_iff_getElem?.2 ⟨i, hi⟩)
  have hload : h.ptr ≠ 0 → ∃ v, w.g.load h.ptr = some v ∧ h.deref w.g = some v := by
    intro hp
    have hb : h.Ok = true := by simpa [SimpleFlyweight.Ok] using hp
    obtain ⟨s, c, _, _, hm⟩ := bound_node w.g t h hok hb
    have hpk := hinv.globals.ptr_ok _ _ _ hm
    obtain ⟨v, hv⟩ := load_some w.g h.ptr hpk.1 hpk.2
    exact ⟨v, hv, by simp only [SimpleFlyweight.deref, if_pos hp]; exact hv⟩
  refine ⟨?_, ?_, ?_, ?_, ?_, ?_, ?_⟩
  · by_cases hp : h.ptr = 0 <;> simp [SimpleFlyweight.call, hp]
  · by_cases hp : h.ptr = 0 <;> simp [SimpleFlyweight.arrow, hp]
  · by_cases hp : h.ptr = 0 <;> simp [SimpleFlyweight.arrowConst, hp]
  · by_cases hp : h.ptr = 0
    · simp [SimpleFlyweight.deref, hp]
    · obtain ⟨v, _, hv⟩ := hload hp
      simp [hv, hp]
  · intro hp
    refine ⟨?_, ?_, ?_, hload hp⟩
    · simp [SimpleFlyweight.call, hp]
    · simp [SimpleFlyweight.arrow, hp]
    · simp [SimpleFlyweight.arrowConst, hp]
  · simp [SimpleFlyweight.unbound, SimpleFlyweight.Ok, SimpleFlyweight.ok,
      SimpleFlyweight.GetPtr, SimpleFlyweight.call, SimpleFlyweight.arrow,
      SimpleFlyweight.arrowConst, SimpleFlyweight.deref]
  · refine ⟨rfl, ?_, ?_⟩
    · by_cases hp : h.ptr = 0 <;> simp [SimpleFlyweight.ok, hp]
    · by_cases hp : h.ptr = 0 <;> simp [SimpleFlyweight.Ok, hp]

/-- Witness of `deref_fails_iff_unbound`: a handle bound with `"hello"` reads `"hello"`. -/
theorem deref_fails_iff_unbound_witness :
    ∃ v, (runD demoOps [.construct 0, .bind 0 (.str "hello")]).g.load 1 = some v ∧
      (⟨1, some DemoShape.string, some ⟨.str "hello"⟩⟩ :
        SimpleFlyweight DemoArgs DemoShape).deref
          (runD demoOps [.construct 0, .bind 0 (.str "hello")]).g = some v :=
  ((deref_fails_iff_unbound demoOps (runD demoOps [.construct 0, .bind 0 (.str "hello")]) 0 0
    ⟨1, some DemoShape.string, some ⟨.str "hello"⟩⟩
    ⟨[.construct 0, .bind 0 (.str "hello")], rfl⟩ rfl).2.2.2.2.1 (by decide)).2.2.2

/-! ## C12: writes through one handle are seen through the others -/

theorem load_set (g : Globals A Shape T) (p q : Nat) (v : T) (hq : q ≠ 0) :
    (⟨g.heap.set (q - 1) v, g.data⟩ : Globals A Shape T).load p =
      if p = q then (if q ≤ g.heap.length then some v else none) else g.load p := by
  by_cases hp0 : p = 0
  · subst hp0
    simp [Globals.load, Ne.symm hq]
  · simp only [Globals.load, if_neg hp0, List.getElem?_set]
    by_cases hpq : p = q
    · subst hpq
      have : p - 1 < g.heap.length ↔ p ≤ g.heap.length := by omega
      simp [this]
    · have : q - 1 ≠ p - 1 := by omega
      simp [hpq, this]

/-- C12.  In every reachable state, for two handles `a` and `b` that hold the same instance
pointer, `a` holding an instance: overwriting the instance with `v` through `a` succeeds,
and afterwards dereferencing `a` and dereferencing `b` both yield `v`; no handle changes,
and every handle that holds another pointer reads what it read before the write. -/
theorem shared_mutation [DecidableEq Shape] (ops : ArgOps A Shape T) (w : World A Shape T)
    (ia ib : Nat) (ta tb : Int) (ha hb : SimpleFlyweight A Shape) (v : T)
    (hw : Reachable ops w) (hia : w.handles[ia]? = some (ta, ha))
    (_hib : w.handles[ib]? = some (tb, hb)) (hok : ha.Ok = true)
    (hsame : hb.GetPtr = ha.GetPtr) :
    ∃ w1, step ops w (.write ia v) = some w1 ∧ ha.deref w1.g = some v ∧
      hb.deref w1.g = some v ∧ w1.handles = w.handles ∧
      ∀ (j : Nat) (tc : Int) (hc : SimpleFlyweight A Shape),
        w.handles[j]? = some (tc, hc) → hc.GetPtr ≠ ha.GetPtr →
          hc.deref w1.g = hc.deref w.g := by
  have hinv := reachable_inv ops w hw
  have hoka := hinv.handles (ta, ha) (List.mem_iff_getElem?.2 ⟨ia, hia⟩)
  obtain ⟨s, c, _, _, hm⟩ := bound_node w.g ta ha hoka hok
  have hpk := hinv.globals.ptr_ok _ _ _ hm
  have hp0 : ha.ptr ≠ 0 := Nat.pos_iff_ne_zero.1 hpk.1
  have hpl : ha.ptr ≤ w.g.heap.length := hpk.2
  have hda : ha.deref (⟨w.g.heap.set (ha.ptr - 1) v, w.g.data⟩ : Globals A Shape T) =
      some v := by
    simp only [SimpleFlyweight.deref, if_pos hp0, load_set w.g _ _ v hp0, if_pos hpl, if_true]
  refine ⟨⟨⟨w.g.heap.set (ha.ptr - 1) v, w.g.data⟩, w.handles⟩, ?_, hda, ?_, rfl, ?_⟩
  · simp [step, hia, SimpleFlyweight.assign, hp0]
  · have hbp : hb.ptr = ha.ptr := hsame
    simp only [SimpleFlyweight.deref, hbp] at hda ⊢
    exact hda
  · intro j tc hc _ hne
    have hcp : hc.ptr ≠ ha.ptr := hne
    simp only [SimpleFlyweight.deref, load_set w.g _ _ v hp0, if_neg hcp]

/-- Witness of `shared_mutation`: handles 0 and 1 share `"hello"`; it is overwritten with
`"bye"` through handle 0 and read through handle 1. -/
theorem shared_mutation_witness :
    ∃ w1, step demoOps (runD demoOps [.construct 0, .construct 0, .bind 0 (.str "hello"),
        .bind 1 (.str "hello")]) (.write 0 "bye") = some w1 ∧
      (⟨1, some DemoShape.string, some ⟨.str "hello"⟩⟩ :
        SimpleFlyweight DemoArgs DemoShape).deref w1.g = some "bye" :=
  (shared_mutation demoOps
    (runD demoOps [.construct 0, .construct 0, .bind 0 (.str "hello"),
      .bind 1 (.str "hello")]) 0 1 0 0
    ⟨1, some DemoShape.string, some ⟨.str "hello"⟩⟩
    ⟨1, some DemoShape.string, some ⟨.str "hello"⟩⟩ "bye"
    ⟨[.construct 0, .construct 0, .bind 0 (.str "hello"), .bind 1 (.str "hello")], rfl⟩
    rfl rfl rfl rfl).imp (fun _ h => ⟨h.1, h.2.2.1⟩)

/-! ## C13: the maps only grow -/

theorem step_le [DecidableEq Shape] (ops : ArgOps A Shape T) (w w1 : World A Shape T)
    (op : Op A T) (hs : step ops w op = some w1) : w.g.Le w1.g := by
  cases op with
  | construct t =>
    simp only [step, Option.some.injEq] at hs
    subst hs
    exact fun _ _ _ he => he
  | copy src =>
    simp only [step] at hs
    cases hsrc : w.handles[src]? with
    | none => simp [hsrc] at hs
    | some th0 =>
      simp only [hsrc, Option.some.injEq] at hs
      subst hs
      exact fun _ _ _ he => he
  | write i v =>
    simp only [step] at hs
    cases hi : w.handles[i]? with
    | none => simp [hi] at hs
    | some th0 =>
      simp only [hi, SimpleFlyweight.assign] at hs
      by_cases hp : th0.2.ptr ≠ 0
      · simp only [if_pos hp, Option.some.injEq] at hs
        subst hs
        exact fun _ _ _ he => he
      · simp [if_neg hp] at hs
  | constructArgs t args =>
    simp only [step, SimpleFlyweight.ctorArgs] at hs
    cases hn : SimpleFlyweight.New ops t SimpleFlyweight.unbound w.g args with
    | none => simp [hn] at hs
    | some r =>
      simp only [hn, Option.some.injEq] at hs
      subst hs
      rcases New_cases ops t _ w.g args r hn with rfl | rfl
      · exact fun _ _ _ he => he
      · exact lookupOrInsert_le ops t _ w.g args
  | bind i args =>
    simp only [step] at hs
    cases hi : w.handles[i]? with
    | none => simp [hi] at hs
    | some th0 =>
      simp only [hi] at hs
      cases hn : th0.2.New ops th0.1 w.g args with
      | none => simp [hn] at hs
      | some r =>
        simp only [hn, Option.some.injEq] at hs
        subst hs
        rcases New_cases ops th0.1 _ w.g args r hn with rfl | rfl
        · exact fun _ _ _ he => he
        · exact lookupOrInsert_le ops th0.1 _ w.g args

/-- C13.  For every operation of a client (default, copy and argument construction, `New`,
assignment through `operator()`) in any state: every node of every map before the operation
is a node of the same map after it, with the same key and pointer, and every address that
holds an instance before still holds one after.  In a reachable state, for argument types
whose `operator<` is a strict weak order, a node after the operation whose key is equivalent
to the key of a node before it is that node: no key gets another pointer.  The accessors
`operator()`, `operator->`, `GetPtr`, `ok` and `Ok` return no new state. -/
theorem registry_grows [DecidableEq Shape] (ops : ArgOps A Shape T) (w w1 : World A Shape T)
    (op : Op A T) (hs : step ops w op = some w1) :
    (∀ t s e, e ∈ w.g.data t s → e ∈ w1.g.data t s) ∧
    w.g.heap.length ≤ w1.g.heap.length ∧
    (∀ p v, w.g.load p = some v → ∃ v1, w1.g.load p = some v1) ∧
    (StrictWeak ops → Reachable ops w → ∀ t s e e1, e ∈ w.g.data t s → e1 ∈ w1.g.data t s →
      equivKey ops e1.1.v e.1.v = true → e1 = e) := by
  have hlen : w.g.heap.length ≤ w1.g.heap.length := by
    rcases step_heap ops w w1 op hs with h | h <;> omega
  refine ⟨step_le ops w w1 op hs, hlen, ?_, ?_⟩
  · intro p v hv
    have hp0 : p ≠ 0 := by
      intro h0
      simp [Globals.load, h0] at hv
    have hpl : p - 1 < w.g.heap.length := by
      simp only [Globals.load, if_neg hp0] at hv
      exact (List.getElem?_eq_some.1 hv).1
    exact load_some w1.g p (Nat.pos_of_ne_zero hp0) (by omega)
  · intro sw hw t s e e1 he he1 hee
    have hw1 : Reachable ops w1 := hw.step op hs
    exact sorted_unique ops _ (reachable_sorted ops sw w1 hw1 t s) _ _ he1
      (step_le ops w w1 op hs t s e he) hee

/-- Witness of `registry_grows`: binding a second handle with `" world"` keeps the node of
`"hello"`. -/
theorem registry_grows_witness :
    (⟨.str "hello"⟩, 1) ∈ (runD demoOps [.construct 0, .bind 0 (.str "hello"), .construct 0,
      .bind 1 (.str " world")]).g.data 0 DemoShape.string :=
  (registry_grows demoOps
    (runD demoOps [.construct 0, .bind 0 (.str "hello"), .construct 0])
    (runD demoOps [.construct 0, .bind 0 (.str "hello"), .construct 0,
      .bind 1 (.str " world")])
    (.bind 1 (.str " world")) rfl).1 0 DemoShape.string _ (List.mem_singleton.2 rfl)

/-! ## C14: construction from arguments -/

/-- A call of `New` whose key is equivalent to the key of a node of the map of its tag and
shape returns the pointer of that node and leaves the global state as it is. -/
theorem New_hit [DecidableEq Shape] (ops : ArgOps A Shape T) (sw : StrictWeak ops)
    (hes : EqSound ops) (tag : Int) (h : SimpleFlyweight A Shape) (g : Globals A Shape T)
    (y : A) (e : CachedArgs A × Nat) (hg : g.Inv ops) (hso : g.Sorted ops)
    (hh : HandleOk g tag h) (he : e ∈ g.data tag (ops.shapeOf y))
    (hey : equivKey ops e.1.v y = true) :
    ∃ h1, h.New ops tag g y = some (e.2, h1, g) ∧ h1.ptr = e.2 := by
  rw [New_eq ops tag h g y hg hh]
  by_cases hfp : h.fastPath ops y = true
  · rw [if_pos hfp]
    obtain ⟨_, _, c, _, hm, hc⟩ := fastPath_elim ops tag h g y hg hh hfp
    have hsc : ops.shapeOf c.v = ops.shapeOf y := hg.shape_ok _ _ _ hm
    have hse : ops.shapeOf e.1.v = ops.shapeOf y := hg.shape_ok _ _ _ he
    have hce : equivKey ops c.v e.1.v = true :=
      sw.equiv_trans _ _ _ hsc hse.symm (hes _ _ hsc hc) (equivKey_symm ops _ _ hey)
    have := sorted_unique ops _ (hso tag _) _ _ hm he hce
    have hp : h.ptr = e.2 := congrArg Prod.snd this
    exact ⟨h, by rw [hp], hp⟩
  · rw [if_neg hfp]
    have hf := mapFind_complete ops sw _ ⟨y⟩ e (fun x hx => hg.shape_ok _ _ x hx)
      (hso tag _) he hey
    rw [lookupOrInsert_hit ops tag h g y e hf]
    exact ⟨_, rfl, rfl⟩

/-- C14, amended.  In any state, constructing a handle of tag `t` from arguments gives the
same state (global state and handles, the new handle last) as default-constructing it and
then calling `New` on it with these arguments.  For argument types whose `operator<` is a
strict weak order and whose `operator==` only holds between keys equivalent under it: if
`New(x)` on a handle of tag `t` returned a pointer in a reachable state, then after any
further operations a handle of tag `t` constructed from `y`, of the shape of `x` and
equivalent to `x`, holds that pointer, and nothing is constructed. -/
theorem ctor_is_default_then_New [DecidableEq Shape] (ops : ArgOps A Shape T)
    (w : World A Shape T) (t : Int) (args : A) :
    step ops w (.constructArgs t args) =
      run ops w [.construct t, .bind w.handles.length args] ∧
    (StrictWeak ops → EqSound ops → ∀ (w0 : World A Shape T) (l : List (Op A T)) (i1 : Nat)
      (h1 : SimpleFlyweight A Shape) (x : A)
      (r1 : Nat × SimpleFlyweight A Shape × Globals A Shape T),
      Reachable ops w0 → w0.handles[i1]? = some (t, h1) → h1.New ops t w0.g x = some r1 →
      run ops ⟨r1.2.2, w0.handles.set i1 (t, r1.2.1)⟩ l = some w →
      ops.shapeOf x = ops.shapeOf args → equivKey ops x args = true →
      ∃ h2, SimpleFlyweight.ctorArgs ops t w.g args = some (h2, w.g) ∧ h2.GetPtr = r1.1) := by
  constructor
  · simp only [step, run, SimpleFlyweight.ctorArgs, List.getElem?_concat_length]
    cases SimpleFlyweight.New ops t SimpleFlyweight.unbound w.g args with
    | none => rfl
    | some r => simp
  · intro sw hes w0 l i1 h1 x r1 hw0 hi1 hn1 hl hs hxy
    have hi0 := reachable_inv ops w0 hw0
    have hok1 := hi0.handles (t, h1) (List.mem_iff_getElem?.2 ⟨i1, hi1⟩)
    obtain ⟨_, _, _, c1, _, hm1, hk1⟩ := New_handle ops t h1 w0.g x hi0.globals hok1 r1 hn1
    have hw1 : Reachable ops ⟨r1.2.2, w0.handles.set i1 (t, r1.2.1)⟩ :=
      hw0.step (.bind i1 x) (step_bind_eq ops w0 i1 (t, h1) x r1 hi1 hn1)
    have hw : Reachable ops w := hw1.run l hl
    have hinv := reachable_inv ops w hw
    have hle := (run_inv ops l _ w (reachable_inv ops _ hw1) hl).2
    have hm : (c1, r1.1) ∈ w.g.data t (ops.shapeOf args) := by
      rw [← hs]
      exact hle _ _ _ hm1
    have hsc : ops.shapeOf c1.v = ops.shapeOf x := by
      rw [hs]
      exact hinv.globals.shape_ok _ _ _ hm
    have hcy : equivKey ops c1.v args = true :=
      sw.equiv_trans _ _ _ hsc hs (key_equiv ops sw hes c1 x hsc hk1) hxy
    obtain ⟨h2, hn2, hp2⟩ := New_hit ops sw hes t SimpleFlyweight.unbound w.g args (c1, r1.1)
      hinv.globals (reachable_sorted ops sw w hw) (Or.inl rfl) hm hcy
    exact ⟨h2, by simp [SimpleFlyweight.ctorArgs, hn2], hp2⟩

/-- C14 as stated fails in its last part when `operator==` holds between keys that the order
tells apart.  With keys `(id, revision)`, ordered on both fields and `==` on the `id` alone:
handle 0 is bound with `(1, 0)` and then with `(1, 1)`, and holds pointer 1; a handle
constructed from `(1, 1)` holds pointer 2. -/
theorem ctor_is_default_then_New_counterexample :
    StrictWeak coarseOps ∧
    (runD coarseOps [.construct 0, .bind 0 (1, 0), .bind 0 (1, 1)]).handles =
      [(0, ⟨1, some (), some ⟨(1, 0)⟩⟩)] ∧
    ((⟨1, some (), some ⟨(1, 0)⟩⟩ : SimpleFlyweight (Nat × Nat) Unit).New coarseOps 0
      (runD coarseOps [.construct 0, .bind 0 (1, 0)]).g (1, 1)).map (fun r => r.1) =
        some 1 ∧
    (SimpleFlyweight.ctorArgs coarseOps 0
      (runD coarseOps [.construct 0, .bind 0 (1, 0), .bind 0 (1, 1)]).g (1, 1)).map
        (fun r => r.1.GetPtr) = some 2 ∧
    (runD coarseOps [.construct 0, .bind 0 (1, 0), .bind 0 (1, 1),
      .constructArgs 0 (1, 1)]).handles.map (fun th => th.2.GetPtr) = [1, 2] :=
  ⟨coarseOps_strictWeak, rfl, rfl, rfl, rfl⟩

/-- Witness of `ctor_is_default_then_New`, on `main.cpp`: `a` is bound with `"hello"`, and
`f` constructed from `"hello"` holds the pointer of `a`. -/
theorem ctor_is_default_then_New_witness :
    ∃ h2, SimpleFlyweight.ctorArgs demoOps 0
        (runD demoOps [.construct 0, .bind 0 (.str "hello")]).g (.str "hello") =
          some (h2, (runD demoOps [.construct 0, .bind 0 (.str "hello")]).g) ∧
      h2.GetPtr = 1 :=
  (ctor_is_default_then_New demoOps (runD demoOps [.construct 0, .bind 0 (.str "hello")]) 0
    (.str "hello")).2 demoOps_strictWeak demoOps_eqSound (runD demoOps [.construct 0]) [] 0
    SimpleFlyweight.unbound (.str "hello")
    (SimpleFlyweight.unbound.lookupOrInsert demoOps 0 (runD demoOps [.construct 0]).g
      (.str "hello"))
    ⟨[.construct 0], rfl⟩ rfl rfl rfl rfl rfl

/-! ## C16: the fast path is an optimisation -/

/-- Consistency while every constructor call returns.  In every state reached by operations
in which the constructor of `T` returned, every handle is as default-constructed (null
pointer, the `no_args` shape marker, null key pointer), or it holds an instance and has a
cached shape `s` and a key pointer that denotes a node of the map of (tag of the handle,
`s`) whose pointer is the pointer of the handle.  So whenever the handle holds an instance
and the shape comparison of the fast path succeeds, the `dynamic_cast` gives a pointer that
is not null, and `New` returns if its constructor call does. -/
theorem consistent_while_constructors_return [DecidableEq Shape] (ops : ArgOps A Shape T)
    (w : World A Shape T) (i : Nat) (t : Int) (h : SimpleFlyweight A Shape)
    (hw : Reachable ops w) (hi : w.handles[i]? = some (t, h)) :
    ((h.ptr = 0 ∧ h.current_args_type = none ∧ h.current_args_ptr = none) ∨
      (h.Ok = true ∧ ∃ s c, h.current_args_type = some s ∧ h.current_args_ptr = some c ∧
        (c, h.ptr) ∈ w.g.data t s)) ∧
    (∀ args, h.ptr ≠ 0 → some (ops.shapeOf args) = h.current_args_type →
      ∃ c, dynamicCast ops (ops.shapeOf args) h.current_args_ptr = some c) ∧
    (∀ args, ∃ r, h.New ops t w.g args = some r) := by
  have hinv := reachable_inv ops w hw
  have hok := hinv.handles (t, h) (List.mem_iff_getElem?.2 ⟨i, hi⟩)
  refine ⟨?_, ?_, ?_⟩
  · rcases hok with rfl | ⟨s, c, hs, hc, hm⟩
    · exact Or.inl ⟨rfl, rfl, rfl⟩
    · right
      have hp := (hinv.globals.ptr_ok _ _ _ hm).1
      have hp0 : h.ptr ≠ 0 := Nat.pos_iff_ne_zero.1 hp
      exact ⟨by simpa [SimpleFlyweight.Ok] using hp0, s, c, hs, hc, hm⟩
  · intro args hp hty
    obtain ⟨c, hc, hs, _⟩ := handleOk_cast ops t h w.g _ hinv.globals hok hp hty
    exact ⟨c, by simp [dynamicCast, hc, hs]⟩
  · intro args
    exact ⟨_, New_eq ops t h w.g args hinv.globals hok⟩

/-- Instance of `consistent_while_constructors_return`: a handle bound with `"hello"`;
`New(" world")` on it returns. -/
theorem consistent_while_constructors_return_example :
    ∃ r, (⟨1, some DemoShape.string, some ⟨.str "hello"⟩⟩ :
        SimpleFlyweight DemoArgs DemoShape).New demoOps 0
          (runD demoOps [.construct 0, .bind 0 (.str "hello")]).g (.str " world") = some r :=
  (consistent_while_constructors_return demoOps (runD demoOps [.construct 0, .bind 0 (.str "hello")])
    0 0 _ ⟨[.construct 0, .bind 0 (.str "hello")], rfl⟩ rfl).2.2 (.str " world")

/-- When the constructor does not throw for `args`, `NewE` ends as `New` does. -/
theorem NewE_eq_New [DecidableEq Shape] (ops : ArgOps A Shape T) (throws : A → Bool)
    (tag : Int) (h : SimpleFlyweight A Shape) (g : Globals A Shape T) (args : A)
    (hnt : throws args = false) :
    h.NewE ops throws tag g args =
      match h.New ops tag g args with
      | some r => .returned r.1 r.2.1 r.2.2
      | none => .nullDeref := by
  have hl : h.lookupOrInsertE ops throws tag g args =
      .returned (h.lookupOrInsert ops tag g args).1 (h.lookupOrInsert ops tag g args).2.1
        (h.lookupOrInsert ops tag g args).2.2 := by
    cases hf : mapFind ops (g.data tag (ops.shapeOf args)) ⟨args⟩ with
    | some e =>
      rw [lookupOrInsert_hit ops tag h g args e hf]
      simp [SimpleFlyweight.lookupOrInsertE, hf]
    | none =>
      rw [lookupOrInsert_miss ops tag h g args hf]
      have := (mapInsert_perm ops (g.data tag (ops.shapeOf args))
        (⟨args⟩, g.heap.length + 1) hf).1
      simp [SimpleFlyweight.lookupOrInsertE, hf, hnt, this]
  unfold SimpleFlyweight.NewE SimpleFlyweight.New
  by_cases h1 : h.ptr ≠ 0
  · by_cases h2 : some (ops.shapeOf args) = h.current_args_type
    · simp only [if_pos h1, if_pos h2]
      cases dynamicCast ops (ops.shapeOf args) h.current_args_ptr with
      | none => rfl
      | some c =>
        by_cases h3 : ops.eq c.v args = true
        · simp only [if_pos h3]
        · simp only [if_neg h3]
          exact hl
    · simp only [if_pos h1, if_neg h2]
      exact hl
  · simp only [if_neg h1]
    exact hl

/-- C17: the code breaks this invariant when a constructor throws.  A handle of
`SimpleFlyweight<std::string>` is bound with `"hello"` and holds pointer 1.
`New(size_t(-1), 'a')` on it finds no node and the constructor throws: the exception leaves
the handle with pointer 1 and the key pointer to the node of `"hello"`, and with the cached
shape `(size_t, char)` that line 87 had already written.  This handle is not consistent with
the maps, and the next `New(2, 'a')` on it passes the shape comparison, gets a null pointer
from the `dynamic_cast` and dereferences it. -/
theorem throwing_constructor_breaks_consistency :
    (runD demoOps [.construct 0, .bind 0 (.str "hello")]).handles =
      [(0, ⟨1, some DemoShape.string, some ⟨.str "hello"⟩⟩)] ∧
    demoThrows (.fill 18446744073709551615 'a') = true ∧
    (⟨1, some DemoShape.string, some ⟨.str "hello"⟩⟩ :
        SimpleFlyweight DemoArgs DemoShape).NewE demoOps demoThrows 0
          (runD demoOps [.construct 0, .bind 0 (.str "hello")]).g
          (.fill 18446744073709551615 'a') =
      .threw ⟨1, some DemoShape.sizeChar, some ⟨.str "hello"⟩⟩
        (runD demoOps [.construct 0, .bind 0 (.str "hello")]).g ∧
    ¬ HandleOk (runD demoOps [.construct 0, .bind 0 (.str "hello")]).g 0
      (⟨1, some DemoShape.sizeChar, some ⟨.str "hello"⟩⟩ :
        SimpleFlyweight DemoArgs DemoShape) ∧
    dynamicCast demoOps DemoShape.sizeChar (some ⟨.str "hello"⟩) = none ∧
    (⟨1, some DemoShape.sizeChar, some ⟨.str "hello"⟩⟩ :
        SimpleFlyweight DemoArgs DemoShape).NewE demoOps demoThrows 0
          (runD demoOps [.construct 0, .bind 0 (.str "hello")]).g (.fill 2 'a') =
      .nullDeref := by
  refine ⟨rfl, rfl, rfl, ?_, rfl, rfl⟩
  rintro (h | ⟨s, c, hs, hc, hm⟩)
  · cases h
  · cases hs
    exact absurd hm (List.not_mem_nil _)

/-! ## C18: `New` twice -/

theorem load_append_last (g : Globals A Shape T) (x : T) (m : Int → Shape → SharedMap A) :
    (⟨g.heap ++ [x], m⟩ : Globals A Shape T).load (g.heap.length + 1) = some x := by
  simp [Globals.load]

theorem New_pristine [DecidableEq Shape] (ops : ArgOps A Shape T) (tag : Int)
    (h : SimpleFlyweight A Shape) (g : Globals A Shape T) (args : A)
    (r : Nat × SimpleFlyweight A Shape × Globals A Shape T) (p : Nat) (hg : g.Inv ops)
    (hr : h.New ops tag g args = some r) (hp : g.Pristine ops p) : r.2.2.Pristine ops p := by
  rcases New_cases ops tag h g args r hr with rfl | rfl
  · exact hp
  · cases hf : mapFind ops (g.data tag (ops.shapeOf args)) ⟨args⟩ with
    | some e1 =>
      rw [lookupOrInsert_hit ops tag h g args e1 hf]
      exact hp
    | none =>
      rw [lookupOrInsert_miss ops tag h g args hf]
      intro t s e he hep
      rcases (miss_mem ops tag g args hf t s e).1 he with h1 | ⟨_, _, h3⟩
      · have hpk := hg.ptr_ok t s e h1
        rw [hep] at hpk
        obtain ⟨v, hv, hv1⟩ := load_mono g
          (⟨g.heap ++ [ops.construct args], g.setData tag (ops.shapeOf args)
            (mapInsert ops (g.data tag (ops.shapeOf args)) (⟨args⟩, g.heap.length + 1)).1⟩ :
            Globals A Shape T) (ops.construct args) p hpk.2 (Or.inr rfl) hpk.1
        rw [hv1, ← hv]
        exact hp t s e h1 hep
      · subst h3
        rw [← hep]
        exact load_append_last g _ _

theorem step_pristine [DecidableEq Shape] (ops : ArgOps A Shape T) (w w1 : World A Shape T)
    (op : Op A T) (p : Nat) (hw : w.Inv ops) (hs : step ops w op = some w1)
    (hnw : op.writesTo w p = false) (hp : w.g.Pristine ops p) : w1.g.Pristine ops p := by
  cases op with
  | construct t =>
    simp only [step, Option.some.injEq] at hs
    subst hs
    exact hp
  | copy src =>
    simp only [step] at hs
    cases hsrc : w.handles[src]? with
    | none => simp [hsrc] at hs
    | some th0 =>
      simp only [hsrc, Option.some.injEq] at hs
      subst hs
      exact hp
  | write i v =>
    simp only [step] at hs
    cases hi : w.handles[i]? with
    | none => simp [hi] at hs
    | some th0 =>
      simp only [hi, SimpleFlyweight.assign] at hs
      by_cases hq : th0.2.ptr ≠ 0
      · simp only [if_pos hq, Option.some.injEq] at hs
        subst hs
        have hne : p ≠ th0.2.ptr := by
          intro h
          simp [Op.writesTo, hi, h] at hnw
        intro t s e he hep
        rw [load_set w.g p _ v hq, if_neg hne]
        exact hp t s e he hep
      · simp [if_neg hq] at hs
  | constructArgs t args =>
    simp only [step, SimpleFlyweight.ctorArgs] at hs
    cases hn : SimpleFlyweight.New ops t SimpleFlyweight.unbound w.g args with
    | none => simp [hn] at hs
    | some r =>
      simp only [hn, Option.some.injEq] at hs
      subst hs
      exact New_pristine ops t _ w.g args r p hw.globals hn hp
  | bind i args =>
    simp only [step] at hs
    cases hi : w.handles[i]? with
    | none => simp [hi] at hs
    | some th0 =>
      simp only [hi] at hs
      cases hn : th0.2.New ops th0.1 w.g args with
      | none => simp [hn] at hs
      | some r =>
        simp only [hn, Option.some.injEq] at hs
        subst hs
        exact New_pristine ops th0.1 _ w.g args r p hw.globals hn hp

/-- An instance that no operation of a run overwrites holds, at the end of the run, the
value it was constructed with. -/
theorem run_pristine [DecidableEq Shape] (ops : ArgOps A Shape T) (l : List (Op A T))
    (w w1 : World A Shape T) (p : Nat) (hw : w.Inv ops) (hr : run ops w l = some w1)
    (hnm : mutatedIn ops p w l = false) (hp : w.g.Pristine ops p) :
    w1.g.Pristine ops p := by
  induction l generalizing w with
  | nil =>
    simp only [run, Option.some.injEq] at hr
    subst hr
    exact hp
  | cons op rest ih =>
    simp only [run] at hr
    cases hs : step ops w op with
    | none => simp [hs] at hr
    | some w2 =>
      simp only [hs] at hr
      simp only [mutatedIn, hs, Bool.or_eq_false_iff] at hnm
      exact ih w2 (step_inv ops w w2 op hw hs).1 hr hnm.2
        (step_pristine ops w w2 op p hw hs hnm.1 hp)

theorem codes_injective (a b : String) (h : codes a = codes b) : a = b := by
  have h1 := congrArg (List.map Char.ofNat) h
  simp only [codes, List.map_map] at h1
  have h2 : ∀ l : List Char, List.map (Char.ofNat ∘ Char.toNat) l = l := by
    intro l
    induction l with
    | nil => rfl
    | cons c cs ih => simp [ih]
  rw [h2, h2] at h1
  exact String.ext h1

/-- C15.  For instances of `std::string` bound with one `std::string` argument: an instance
that `New(s)` constructs holds `s`.  In every run from the start, if handle `a` holds an
instance, its cached shape is the one-string shape and its cached key is equivalent to `s`
(it is bound by `New(s)`), and no operation of the run overwrote its instance, then
dereferencing `a` yields `s`, and `New` with that value on any handle `e` of the same tag
returns the pointer of `a`, which `e` then holds, and changes no global state.  (An argument
passed as `const std::string&` is deduced as `std::string`: it is the same argument
list.) -/
theorem string_round_trip (l : List (Op DemoArgs String)) (w : World DemoArgs DemoShape String)
    (ia ie : Nat) (t : Int) (ha he : SimpleFlyweight DemoArgs DemoShape)
    (c : CachedArgs DemoArgs) (s : String)
    (hr : run demoOps World.init l = some w) (hia : w.handles[ia]? = some (t, ha))
    (hie : w.handles[ie]? = some (t, he)) (hok : ha.Ok = true)
    (hty : ha.current_args_type = some DemoShape.string)
    (hc : ha.current_args_ptr = some c) (hcs : equivKey demoOps c.v (.str s) = true)
    (hnm : mutatedIn demoOps ha.GetPtr World.init l = false) :
    (∀ (g : Globals DemoArgs DemoShape String) (h : SimpleFlyweight DemoArgs DemoShape)
      (tag : Int), mapFind demoOps (g.data tag DemoShape.string) ⟨.str s⟩ = none →
      (h.lookupOrInsert demoOps tag g (.str s)).2.2.load
        (h.lookupOrInsert demoOps tag g (.str s)).1 = some s) ∧
    ha.deref w.g = some s ∧
    ∃ h1, he.New demoOps t w.g (.str s) = some (ha.GetPtr, h1, w.g) ∧
      h1.GetPtr = ha.GetPtr := by
  have hw : Reachable demoOps w := ⟨l, hr⟩
  have hinv := reachable_inv demoOps w hw
  have hoka := hinv.handles (t, ha) (List.mem_iff_getElem?.2 ⟨ia, hia⟩)
  have hoke := hinv.handles (t, he) (List.mem_iff_getElem?.2 ⟨ie, hie⟩)
  obtain ⟨s1, c1, hs1, hc1, hm⟩ := bound_node w.g t ha hoka hok
  rw [hty] at hs1
  rw [hc] at hc1
  cases hs1
  cases hc1
  have hsc : demoOps.shapeOf c.v = DemoShape.string := hinv.globals.shape_ok _ _ _ hm
  have hcv : c.v = .str s := by
    cases hv : c.v with
    | fill n ch => rw [hv] at hsc; cases hsc
    | str s2 =>
      rw [hv] at hcs
      simp only [equivKey, demoOps, Bool.and_eq_true, Bool.not_eq_true'] at hcs
      rw [codes_injective s2 s (lexLt_total _ _ hcs.1 hcs.2)]
  refine ⟨?_, ?_, ?_⟩
  · intro g h tag hf
    rw [lookupOrInsert_miss demoOps tag h g (.str s) hf]
    exact load_append_last g _ _
  · have hpr := run_pristine demoOps l World.init w ha.ptr (init_inv demoOps) hr hnm
      (by intro t s e he; simp [World.init, Globals.init] at he)
    have hp0 : ha.ptr ≠ 0 := Nat.pos_iff_ne_zero.1 (hinv.globals.ptr_ok _ _ _ hm).1
    simp only [SimpleFlyweight.deref, if_pos hp0]
    rw [hpr t _ _ hm rfl, hcv]
    rfl
  · exact New_hit demoOps demoOps_strictWeak demoOps_eqSound t he w.g (.str s) (c, ha.ptr)
      hinv.globals (reachable_sorted demoOps demoOps_strictWeak w hw) hoke hm hcs

/-- Witness of `string_round_trip`, on `main.cpp`: `a` is bound with `"hello"`, and `e` is
bound with the value of `a`. -/
theorem string_round_trip_witness :
    ∃ h1, SimpleFlyweight.unbound.New demoOps 0
        (runD demoOps [.construct 0, .bind 0 (.str "hello"), .construct 0]).g
        (.str "hello") =
      some (1, h1, (runD demoOps [.construct 0, .bind 0 (.str "hello"), .construct 0]).g) ∧
      h1.GetPtr = 1 :=
  (string_round_trip [.construct 0, .bind 0 (.str "hello"), .construct 0]
    (runD demoOps [.construct 0, .bind 0 (.str "hello"), .construct 0]) 0 1 0
    ⟨1, some DemoShape.string, some ⟨.str "hello"⟩⟩ SimpleFlyweight.unbound
    ⟨.str "hello"⟩ "hello" rfl rfl rfl rfl rfl rfl rfl rfl).2.2

/-! ## C19: lookup ignores the content of the instances -/

/-- C19, amended.  For argument types whose `operator<` is a strict weak order and whose
`operator==` only holds between keys equivalent under it: in every reachable state, let
handle `a` of tag `t` hold an instance, whose node has key `k`.  Overwriting the instance
with any value `v` through `a` succeeds and changes no handle and no map; afterwards
dereferencing `a` yields `v`, `New` with arguments of the shape of `k` and equivalent to `k`
on any handle of tag `t` returns the pointer of `a` and changes no global state, so it
constructs nothing, and `New` with arguments of that shape not equivalent to `k`, such as
arguments equivalent to `v`, returns another pointer. -/
theorem lookup_ignores_content [DecidableEq Shape] (ops : ArgOps A Shape T)
    (sw : StrictWeak ops) (hes : EqSound ops) (w : World A Shape T) (ia ie : Nat) (t : Int)
    (ha he : SimpleFlyweight A Shape) (k : CachedArgs A) (v : T) (y : A)
    (hw : Reachable ops w) (hia : w.handles[ia]? = some (t, ha))
    (hie : w.handles[ie]? = some (t, he)) (hok : ha.Ok = true)
    (hk : ha.current_args_ptr = some k) (hsy : ops.shapeOf y = ops.shapeOf k.v) :
    ∃ w1, step ops w (.write ia v) = some w1 ∧ w1.handles = w.handles ∧
      w1.g.data = w.g.data ∧ ha.deref w1.g = some v ∧
      (equivKey ops y k.v = true →
        ∃ h1, he.New ops t w1.g y = some (ha.GetPtr, h1, w1.g) ∧ h1.GetPtr = ha.GetPtr) ∧
      (equivKey ops y k.v = false →
        ∃ r, he.New ops t w1.g y = some r ∧ r.1 ≠ ha.GetPtr ∧ r.2.1.GetPtr ≠ ha.GetPtr) := by
  have hinv := reachable_inv ops w hw
  have hoka := hinv.handles (t, ha) (List.mem_iff_getElem?.2 ⟨ia, hia⟩)
  obtain ⟨s1, c1, _, hc1, hm⟩ := bound_node w.g t ha hoka hok
  rw [hk] at hc1
  cases hc1
  have hsk : ops.shapeOf k.v = s1 := hinv.globals.shape_ok _ _ _ hm
  subst hsk
  have hpk := hinv.globals.ptr_ok _ _ _ hm
  have hp0 : ha.ptr ≠ 0 := Nat.pos_iff_ne_zero.1 hpk.1
  have hs : step ops w (.write ia v) =
      some ⟨⟨w.g.heap.set (ha.ptr - 1) v, w.g.data⟩, w.handles⟩ := by
    simp [step, hia, SimpleFlyweight.assign, hp0]
  have hw1 : Reachable ops ⟨⟨w.g.heap.set (ha.ptr - 1) v, w.g.data⟩, w.handles⟩ :=
    hw.step _ hs
  have hinv1 := reachable_inv ops _ hw1
  have hoke := hinv1.handles (t, he) (List.mem_iff_getElem?.2 ⟨ie, hie⟩)
  refine ⟨_, hs, rfl, rfl, ?_, ?_, ?_⟩
  · simp only [SimpleFlyweight.deref, if_pos hp0, load_set w.g _ _ v hp0, if_pos hpk.2,
      if_true]
  · intro hyk
    rw [← hsy] at hm
    exact New_hit ops sw hes t he _ y (k, ha.ptr) hinv1.globals
      (reachable_sorted ops sw _ hw1) hoke hm (equivKey_symm ops _ _ hyk)
  · intro hyk
    have hn := New_eq ops t he _ y hinv1.globals hoke
    refine ⟨_, hn, ?_⟩
    obtain ⟨hp, _, _, c2, _, hm2, hk2⟩ := New_handle ops t he _ y hinv1.globals hoke _ hn
    have hi2 := New_inv ops t he _ y hinv1.globals hoke _ hn
    have hne : (if he.fastPath ops y = true then
        (he.ptr, he, (⟨w.g.heap.set (ha.ptr - 1) v, w.g.data⟩ : Globals A Shape T))
        else he.lookupOrInsert ops t ⟨w.g.heap.set (ha.ptr - 1) v, w.g.data⟩ y).1 ≠
        ha.ptr := by
      intro heq
      have hsc2 : ops.shapeOf c2.v = ops.shapeOf y := hi2.1.shape_ok _ _ _ hm2
      have hck := (hi2.1.ptr_inj _ _ _ _ _ _ hm2 (hi2.2 _ _ _ hm) heq).2.2
      have hc2k : c2 = k := congrArg Prod.fst hck
      have := key_equiv ops sw hes c2 y hsc2 hk2
      rw [hc2k] at this
      rw [equivKey_symm ops _ _ this] at hyk
      cases hyk
    refine ⟨hne, ?_⟩
    show _ ≠ ha.ptr
    rw [show SimpleFlyweight.GetPtr _ = SimpleFlyweight.ptr _ from rfl, hp]
    exact hne

/-- Witness of `lookup_ignores_content`: the instance of `"hello"` is overwritten with
`"bye"` through handle 0; `New("hello")` on handle 1 still returns its pointer 1. -/
theorem lookup_ignores_content_witness :
    ∃ w1, step demoOps (runD demoOps [.construct 0, .bind 0 (.str "hello"), .construct 0])
        (.write 0 "bye") = some w1 ∧
      (⟨1, some DemoShape.string, some ⟨.str "hello"⟩⟩ :
        SimpleFlyweight DemoArgs DemoShape).deref w1.g = some "bye" ∧
      ∃ h1, SimpleFlyweight.unbound.New demoOps 0 w1.g (.str "hello") = some (1, h1, w1.g) ∧
        h1.GetPtr = 1 :=
  (lookup_ignores_content demoOps demoOps_strictWeak demoOps_eqSound
    (runD demoOps [.construct 0, .bind 0 (.str "hello"), .construct 0]) 0 1 0
    ⟨1, some DemoShape.string, some ⟨.str "hello"⟩⟩ SimpleFlyweight.unbound
    ⟨.str "hello"⟩ "bye" (.str "hello")
    ⟨[.construct 0, .bind 0 (.str "hello"), .construct 0], rfl⟩ rfl rfl rfl rfl rfl).imp
    (fun _ h => ⟨h.1, h.2.2.2.1, h.2.2.2.2.1 rfl⟩)

/-- C19 as stated fails when `operator==` holds between keys that the order tells apart.
With keys `(id, revision)`, ordered on both fields and `==` on the `id` alone: handle 0 is
bound with `(1, 0)` at pointer 1 and handle 1 with `(1, 1)` at pointer 2; the instance at
pointer 1 is overwritten through handle 0; then `New((1, 0))` on handle 1 returns
pointer 2, not the instance created under `(1, 0)`. -/
theorem lookup_ignores_content_counterexample :
    StrictWeak coarseOps ∧ equivKey coarseOps (1, 0) (1, 0) = true ∧
    (runD coarseOps [.construct 0, .construct 0, .bind 0 (1, 0), .bind 1 (1, 1),
      .write 0 (9, 9)]).handles =
      [(0, ⟨1, some (), some ⟨(1, 0)⟩⟩), (0, ⟨2, some (), some ⟨(1, 1)⟩⟩)] ∧
    (runD coarseOps [.construct 0, .construct 0, .bind 0 (1, 0), .bind 1 (1, 1),
      .write 0 (9, 9)]).g.heap = [(9, 9), (1, 1)] ∧
    ((⟨2, some (), some ⟨(1, 1)⟩⟩ : SimpleFlyweight (Nat × Nat) Unit).New coarseOps 0
      (runD coarseOps [.construct 0, .construct 0, .bind 0 (1, 0), .bind 1 (1, 1),
        .write 0 (9, 9)]).g (1, 0)).map (fun r => r.1) = some 2 :=
  ⟨coarseOps_strictWeak, rfl, rfl, rfl, rfl⟩

end Flyweight
